import Mathlib

/-!
Verification development for the `rust-discuss` ECMA-402 interface proposals.

The repository consists of two Rust crates of trait declarations:
`proposals/ecma402_traits` (traits `LanguageIdentifier`, `AsBCP47`,
`weird::Variants`, with a mock implementation `TestID` in its test module)
and `rfc/002-ecma-402` (trait `Locale` with constructor options `Opt`).
The accompanying specification describes the BCP-47 scanner / parser /
canonicalizer / options-merger engine that a production realization of
those contracts would contain.  Definitions below marked
`Modelled from the spec:` embed that described engine; the remaining
definitions are shallow embeddings of the Rust code itself.
-/

namespace RustDiscuss

/-! ## ASCII character classes and case mapping -/

/-- ASCII alphabetic test, as used by the subtag shape rules. -/
def isAsciiAlpha (c : Char) : Bool :=
  ('A' ≤ c && c ≤ 'Z') || ('a' ≤ c && c ≤ 'z')

/-- ASCII digit test. -/
def isAsciiDigit (c : Char) : Bool :=
  '0' ≤ c && c ≤ '9'

/-- ASCII alphanumeric test (the scanner's allowed charset). -/
def isAsciiAlphanum (c : Char) : Bool :=
  isAsciiAlpha c || isAsciiDigit c

/-- Table of uppercase/lowercase ASCII letter pairs. -/
def lowerPairs : List (Char × Char) :=
  [('A','a'),('B','b'),('C','c'),('D','d'),('E','e'),('F','f'),('G','g'),
   ('H','h'),('I','i'),('J','j'),('K','k'),('L','l'),('M','m'),('N','n'),
   ('O','o'),('P','p'),('Q','q'),('R','r'),('S','s'),('T','t'),('U','u'),
   ('V','v'),('W','w'),('X','x'),('Y','y'),('Z','z')]

/-- Table of lowercase/uppercase ASCII letter pairs. -/
def upperPairs : List (Char × Char) :=
  [('a','A'),('b','B'),('c','C'),('d','D'),('e','E'),('f','F'),('g','G'),
   ('h','H'),('i','I'),('j','J'),('k','K'),('l','L'),('m','M'),('n','N'),
   ('o','O'),('p','P'),('q','Q'),('r','R'),('s','S'),('t','T'),('u','U'),
   ('v','V'),('w','W'),('x','X'),('y','Y'),('z','Z')]

/-- ASCII lowercasing of a single character. -/
def lowerChar (c : Char) : Char :=
  ((lowerPairs.find? (fun p => p.1 == c)).map Prod.snd).getD c

/-- ASCII uppercasing of a single character. -/
def upperChar (c : Char) : Char :=
  ((upperPairs.find? (fun p => p.1 == c)).map Prod.snd).getD c

/-- ASCII lowercasing of a string. -/
def lowerStr (s : String) : String :=
  ⟨s.data.map lowerChar⟩

/-- ASCII uppercasing of a string. -/
def upperStr (s : String) : String :=
  ⟨s.data.map upperChar⟩

/-- Titlecasing of a string: first character uppercase, rest lowercase
(the canonical casing of script subtags). -/
def titleStr (s : String) : String :=
  match s.data with
  | [] => ⟨[]⟩
  | c :: cs => ⟨upperChar c :: cs.map lowerChar⟩

/-! ## The `TestID` implementation from `proposals/ecma402_traits` tests

The test module of `ecma402_traits` implements the proposal's traits for a
concrete struct `TestID`; these definitions embed that struct and its
trait implementations directly from the Rust source. -/

/-- The `TestID` struct from the `ecma402_traits` test module. -/
structure TestID where
  language : String
  region : Option String
  script : Option String
  variants : List String

/-- The `Variants::num_variants` implementation for `TestID`:
`self.variants.len()`. -/
def TestID.num_variants (id : TestID) : Nat :=
  id.variants.length

/-- The `Variants::for_each_variant` implementation for `TestID`:
`self.variants.iter().map(|s| for_each(s)).for_each(drop)`, i.e. the
(stateful) closure is applied to each stored variant in sequence.  The
closure's captured mutable state is made explicit as a value of type `σ`
threaded left to right. -/
def TestID.for_each_variant (id : TestID) (f : String → σ → σ) (init : σ) : σ :=
  id.variants.foldl (fun s v => f v s) init

/-! ## Method-call embeddings for the frame property

Each Rust accessor takes `&self`; its call is embedded as a function
returning the accessor's result together with the receiver state left
behind by the method body (which performs only field reads). -/

/-- Calling `LanguageIdentifier::language` on a `TestID`. -/
def languageCall (id : TestID) : String × TestID :=
  (id.language, id)

/-- Calling `LanguageIdentifier::region` on a `TestID`. -/
def regionCall (id : TestID) : Option String × TestID :=
  (id.region, id)

/-- Calling `LanguageIdentifier::script` on a `TestID`. -/
def scriptCall (id : TestID) : Option String × TestID :=
  (id.script, id)

/-- Calling `Variants::num_variants` on a `TestID`. -/
def numVariantsCall (id : TestID) : Nat × TestID :=
  (id.num_variants, id)

/-- Calling `Variants::for_each_variant` on a `TestID` with a stateful
visitor. -/
def forEachVariantCall (id : TestID) (f : String → σ → σ) (init : σ) :
    σ × TestID :=
  (id.for_each_variant f init, id)

/-! ## The BCP-47 engine described by the specification

The repository contains only trait declarations; the specification
describes the scanner / parser / canonicalizer / merger engine that a
production implementation of the traits would contain.  The following
definitions model that engine from the specification text. -/

/-- Modelled from the spec: the structured parse result `LanguageTag`
(spec section 3), holding language, extlang sequence, optional script,
optional region, variants, ordered singleton-keyed extensions, and an
optional private-use sequence.  The repository has no such struct; only
the trait declarations that its accessors would implement exist. -/
structure LanguageTag where
  language : String
  extlang : List String
  script : Option String
  region : Option String
  variants : List String
  extensions : List (Char × List String)
  privateuse : Option (List String)
deriving DecidableEq, Repr

/-- Modelled from the spec: the surface `language()` accessor, which
returns the `und` sentinel when the language subtag is empty or unset
and is never empty. -/
def languageOf (t : LanguageTag) : String :=
  if t.language = "" then "und" else t.language

/-! ### Subtag shape predicates (spec sections 3 and 4.2) -/

/-- Language subtag shape: 2 to 8 alphabetic characters. -/
def isLangTok (t : String) : Bool :=
  2 ≤ t.data.length && t.data.length ≤ 8 && t.data.all isAsciiAlpha

/-- Extlang subtag shape: exactly 3 alphabetic characters. -/
def isExtlangTok (t : String) : Bool :=
  t.data.length == 3 && t.data.all isAsciiAlpha

/-- Script subtag shape: exactly 4 alphabetic characters. -/
def isScriptTok (t : String) : Bool :=
  t.data.length == 4 && t.data.all isAsciiAlpha

/-- Region subtag shape: 2 alphabetic or 3 numeric characters. -/
def isRegionTok (t : String) : Bool :=
  (t.data.length == 2 && t.data.all isAsciiAlpha) ||
  (t.data.length == 3 && t.data.all isAsciiDigit)

/-- Variant subtag shape: 4 to 8 alphanumeric characters. -/
def isVariantTok (t : String) : Bool :=
  4 ≤ t.data.length && t.data.length ≤ 8 && t.data.all isAsciiAlphanum

/-- Extension value subtag shape: 2 to 8 alphanumeric characters (a
1-character token would itself be a singleton). -/
def isExtValTok (t : String) : Bool :=
  2 ≤ t.data.length && t.data.length ≤ 8 && t.data.all isAsciiAlphanum

/-! ### Tag Scanner (spec section 4.1) -/

/-- Modelled from the spec: lexical scanner errors. -/
inductive ScanError where
  | emptyInput
  | invalidSubtag (position : Nat) (token : String)
deriving DecidableEq, Repr

/-- Splits a character list at `-` delimiters; always returns at least
one (possibly empty) part, and empty parts mark delimiter misuse. -/
def splitDash : List Char → List (List Char)
  | [] => [[]]
  | c :: rest =>
    if c = '-' then [] :: splitDash rest
    else
      match splitDash rest with
      | [] => [[c]]
      | p :: ps => (c :: p) :: ps

/-- Joins parts with `-` delimiters (the serializer's token joiner). -/
def intercalateDash : List (List Char) → List Char
  | [] => []
  | [p] => p
  | p :: q :: ps => p ++ '-' :: intercalateDash (q :: ps)

/-- Scanner token check: nonempty, at most 8 characters, ASCII
alphanumeric only. -/
def tokOK (p : List Char) : Bool :=
  !p.isEmpty && p.length ≤ 8 && p.all isAsciiAlphanum

/-- Validates each scanned part in order, reporting the position and
text of the first offending part. -/
def checkToks : Nat → List (List Char) → Except ScanError (List String)
  | _, [] => .ok []
  | i, p :: ps =>
    if tokOK p then (checkToks (i + 1) ps).map (fun ts => (⟨p⟩ : String) :: ts)
    else .error (.invalidSubtag i ⟨p⟩)

/-- Modelled from the spec: `scan(raw)` splits the raw string on `-`,
rejecting empty input, delimiter misuse (via the empty part it creates),
over-long parts, and non-alphanumeric characters. -/
def scan (raw : String) : Except ScanError (List String) :=
  if raw.data.isEmpty then .error .emptyInput
  else checkToks 0 (splitDash raw.data)

/-! ### Tag Parser / Validator (spec section 4.2) -/

/-- Grammar slots of the parser's state machine. -/
inductive Slot where
  | languageSlot
  | extensionSlot
deriving DecidableEq, Repr

/-- Modelled from the spec: grammar errors of the parser. -/
inductive ParseError where
  | unexpectedSubtag (token : String) (expected : Slot)
  | missingLanguage
  | duplicateVariant (token : String)
  | missingSingletonValue (singleton : Char)
deriving DecidableEq, Repr

/-- Consumes up to `n` extlang-shaped tokens from the front. -/
def parseExtlangAux : Nat → List String → List String × List String
  | 0, ts => ([], ts)
  | _ + 1, [] => ([], [])
  | n + 1, t :: rest =>
    if isExtlangTok t then
      let (es, r) := parseExtlangAux n rest
      (t :: es, r)
    else ([], t :: rest)

/-- Consumes the front token when it matches the given shape. -/
def peekOpt (p : String → Bool) : List String → Option String × List String
  | [] => (none, [])
  | t :: rest => if p t then (some t, rest) else (none, t :: rest)

/-- Consumes variant-shaped tokens, rejecting case-insensitive
duplicates. -/
def parseVarsAux (acc : List String) :
    List String → Except ParseError (List String × List String)
  | [] => .ok (acc, [])
  | t :: rest =>
    if isVariantTok t then
      if (acc.map lowerStr).contains (lowerStr t) then
        .error (.duplicateVariant t)
      else parseVarsAux (acc ++ [t]) rest
    else .ok (acc, t :: rest)

/-- Closes the extension currently being collected, rejecting a
singleton with no value subtags. -/
def flushCur (cur : Option (Char × List String))
    (acc : List (Char × List String)) :
    Except ParseError (List (Char × List String)) :=
  match cur with
  | none => .ok acc
  | some (k, []) => .error (.missingSingletonValue k)
  | some (k, v :: vs) => .ok (acc ++ [(k, v :: vs)])

/-- The trailing private-use sequence: must be nonempty. -/
def parsePrivate : List String → Except ParseError (Option (List String))
  | [] => .error (.missingSingletonValue 'x')
  | v :: vs => .ok (some (v :: vs))

/-- Consumes extension sequences (singleton plus value subtags) and the
trailing private-use sequence. -/
def parseExtsAux (cur : Option (Char × List String))
    (acc : List (Char × List String)) :
    List String →
      Except ParseError (List (Char × List String) × Option (List String))
  | [] => (flushCur cur acc).map (fun a => (a, none))
  | t :: rest =>
    if t.data.length = 1 then
      (flushCur cur acc).bind (fun acc2 =>
        if lowerChar (t.data.headD 'x') = 'x' then
          (parsePrivate rest).map (fun pu => (acc2, pu))
        else parseExtsAux (some (t.data.headD 'x', [])) acc2 rest)
    else
      match cur with
      | some (k, vs) =>
        if isExtValTok t then parseExtsAux (some (k, vs ++ [t])) acc rest
        else .error (.unexpectedSubtag t .extensionSlot)
      | none => .error (.unexpectedSubtag t .extensionSlot)

/-- Modelled from the spec: the grammar-slot state machine over the
scanned token sequence (`Language → ExtLang → Script? → Region? →
Variants* → Extensions* → PrivateUse?`), with the private-use-only
alternative short-circuiting the main grammar and surfacing the `und`
language sentinel. -/
def parseTokens (toks : List String) : Except ParseError LanguageTag :=
  match toks with
  | [] => .error .missingLanguage
  | t :: rest =>
    if lowerStr t = "x" then
      match rest with
      | [] => .error (.missingSingletonValue 'x')
      | v :: vs =>
        .ok { language := "und", extlang := [], script := none,
              region := none, variants := [], extensions := [],
              privateuse := some (v :: vs) }
    else if isLangTok t then
      let pr1 := parseExtlangAux 3 rest
      let pr2 := peekOpt isScriptTok pr1.2
      let pr3 := peekOpt isRegionTok pr2.2
      (parseVarsAux [] pr3.2).bind (fun pv =>
        (parseExtsAux none [] pv.2).bind (fun pe =>
          .ok { language := t, extlang := pr1.1, script := pr2.1,
                region := pr3.1, variants := pv.1, extensions := pe.1,
                privateuse := pe.2 }))
    else .error (.unexpectedSubtag t .languageSlot)

deriving instance DecidableEq for Except

/-- Combined error type of the staged pipeline. -/
inductive LocaleError where
  | scanErr (e : ScanError)
  | parseErr (e : ParseError)
deriving DecidableEq, Repr

/-- Modelled from the spec: the fixed list of grandfathered legacy
whole-tag exceptions, checked before grammar parsing and yielding a tag
directly. -/
def grandfatheredLookup (s : String) : Option LanguageTag :=
  if s = "i-klingon" then
    some { language := "tlh", extlang := [], script := none, region := none,
           variants := [], extensions := [], privateuse := none }
  else if s = "i-navajo" then
    some { language := "nv", extlang := [], script := none, region := none,
           variants := [], extensions := [], privateuse := none }
  else none

/-- Modelled from the spec: the full parsing pipeline — grandfathered
lookup first, then Scanner, then the Parser / Validator state machine. -/
def parseTag (raw : String) : Except LocaleError LanguageTag :=
  match grandfatheredLookup (lowerStr raw) with
  | some t => .ok t
  | none =>
    match scan raw with
    | .error e => .error (.scanErr e)
    | .ok toks => (parseTokens toks).mapError .parseErr

/-! ### Canonicalizer (spec section 4.3) -/

/-- Modelled from the spec: the static language alias table rewriting
deprecated language subtags to their preferred modern form. -/
def aliasLang (s : String) : String :=
  if s = "iw" then "he"
  else if s = "in" then "id"
  else if s = "ji" then "yi"
  else s

/-- Modelled from the spec: the static region alias table (applied to
uppercased region subtags). -/
def aliasRegion (s : String) : String :=
  if s = "BU" then "MM"
  else if s = "DD" then "DE"
  else s

/-- Modelled from the spec: the static variant alias table. -/
def aliasVariant (s : String) : String :=
  if s = "heploc" then "alalc97" else s

/-- Canonical form of a single variant subtag: lowercase, then alias
substitution. -/
def canonVariant (s : String) : String :=
  aliasVariant (lowerStr s)

/-- Canonical form of a single extension entry: lowercased singleton and
lowercased value subtags (value order inside one extension is
preserved). -/
def canonExt (e : Char × List String) : Char × List String :=
  (lowerChar e.1, e.2.map lowerStr)

/-- Ordering of extension entries by singleton (by character code). -/
def extLE (a b : Char × List String) : Prop :=
  a.1.toNat ≤ b.1.toNat

instance (a b : Char × List String) : Decidable (extLE a b) :=
  inferInstanceAs (Decidable (a.1.toNat ≤ b.1.toNat))

instance : IsTotal (Char × List String) extLE :=
  ⟨fun a b => Nat.le_total a.1.toNat b.1.toNat⟩

instance : IsTrans (Char × List String) extLE :=
  ⟨fun _ _ _ h1 h2 => Nat.le_trans h1 h2⟩

/-- Lexicographic comparison of character lists by character code (the
canonical comparator for variant subtags). -/
def lexLt : List Char → List Char → Bool
  | [], [] => false
  | [], _ :: _ => true
  | _ :: _, [] => false
  | a :: as, b :: bs =>
    if a.toNat < b.toNat then true
    else if b.toNat < a.toNat then false
    else lexLt as bs

/-- Ordering of variant subtags (alphabetical). -/
def strLE (a b : String) : Prop :=
  lexLt b.data a.data = false

instance (a b : String) : Decidable (strLE a b) :=
  inferInstanceAs (Decidable (lexLt b.data a.data = false))

theorem lexLt_asymm : ∀ x y : List Char, lexLt x y = true → lexLt y x = false
  | [], [], h => by simp [lexLt] at h
  | [], _ :: _, _ => rfl
  | _ :: _, [], h => by simp [lexLt] at h
  | a :: as, b :: bs, h => by
    unfold lexLt at h ⊢
    by_cases h1 : a.toNat < b.toNat
    · rw [if_neg (by omega), if_pos h1]
    · rw [if_neg h1] at h
      by_cases h2 : b.toNat < a.toNat
      · rw [if_pos h2] at h
        exact absurd h (by simp)
      · rw [if_neg h2] at h
        rw [if_neg h2, if_neg h1]
        exact lexLt_asymm as bs h

theorem lexLt_neg_trans : ∀ x y z : List Char, lexLt z x = true →
    lexLt y x = true ∨ lexLt z y = true
  | [], _, [], h => by simp [lexLt] at h
  | [], _, _ :: _, h => by simp [lexLt] at h
  | _ :: _, [], _, _ => Or.inl rfl
  | _ :: _, _ :: _, [], _ => Or.inr rfl
  | a :: as, b :: bs, c :: cs, h => by
    unfold lexLt at h ⊢
    by_cases h1 : c.toNat < a.toNat
    · by_cases h2 : b.toNat < a.toNat
      · left
        rw [if_pos h2]
      · by_cases h3 : c.toNat < b.toNat
        · right
          rw [if_pos h3]
        · exact absurd h1 (by omega)
    · rw [if_neg h1] at h
      by_cases h4 : a.toNat < c.toNat
      · rw [if_pos h4] at h
        exact absurd h (by simp)
      · rw [if_neg h4] at h
        by_cases h2 : b.toNat < a.toNat
        · left
          rw [if_pos h2]
        · by_cases h5 : a.toNat < b.toNat
          · right
            rw [if_pos (show c.toNat < b.toNat by omega)]
          · rcases lexLt_neg_trans as bs cs h with h6 | h6
            · left
              rw [if_neg h2, if_neg h5]
              exact h6
            · right
              rw [if_neg (show ¬(c.toNat < b.toNat) by omega),
                if_neg (show ¬(b.toNat < c.toNat) by omega)]
              exact h6

instance : IsTotal String strLE where
  total a b := by
    cases hb : lexLt b.data a.data with
    | false => exact Or.inl hb
    | true => exact Or.inr (lexLt_asymm b.data a.data hb)

instance : IsTrans String strLE where
  trans a b c hab hbc := by
    unfold strLE at hab hbc ⊢
    cases hca : lexLt c.data a.data with
    | false => rfl
    | true =>
      rcases lexLt_neg_trans a.data b.data c.data hca with h | h
      · rw [h] at hab
        exact absurd hab (by simp)
      · rw [h] at hbc
        exact absurd hbc (by simp)

/-- Canonical form of the language subtag: lowercase then alias
substitution. -/
def canonLang (s : String) : String :=
  aliasLang (lowerStr s)

/-- Canonical form of the region subtag: uppercase then alias
substitution. -/
def canonRegion (s : String) : String :=
  aliasRegion (upperStr s)

/-- Canonical variant list: per-variant canonical form, alphabetical
order, duplicates removed (preserving the no-duplicate invariant of spec
section 3). -/
def canonVariantsList (vs : List String) : List String :=
  ((vs.map canonVariant).insertionSort strLE).dedup

/-- Canonical extension list: per-entry canonical form, entries ordered
by singleton. -/
def canonExtsList (es : List (Char × List String)) :
    List (Char × List String) :=
  (es.map canonExt).insertionSort extLE

/-- Modelled from the spec: `canonicalize` — casing normalization
(language lowercase, script titlecase, region uppercase,
variants / extensions / private-use lowercase), alias substitution for
language, region and variant subtags, variants sorted alphabetically and
deduplicated (preserving the no-duplicate invariant of section 3), and
extension entries sorted by singleton.  Pure and total. -/
def canonicalize (t : LanguageTag) : LanguageTag where
  language := canonLang t.language
  extlang := t.extlang.map lowerStr
  script := t.script.map titleStr
  region := t.region.map canonRegion
  variants := canonVariantsList t.variants
  extensions := canonExtsList t.extensions
  privateuse := t.privateuse.map (fun vs => vs.map lowerStr)

/-! ### Serialization (`AsBCP47`, spec section 4.5) -/

/-- The tokens of the extension component: each entry contributes its
singleton followed by its value subtags. -/
def extTokens (es : List (Char × List String)) : List String :=
  (es.map (fun e => (⟨[e.1]⟩ : String) :: e.2)).flatten

/-- The tokens of the private-use component: the `x` introducer followed
by the value subtags, when present. -/
def puTokens : Option (List String) → List String
  | none => []
  | some vs => "x" :: vs

/-- The token sequence of a structured tag, in grammar order with the
private-use sequence last. -/
def tokensOf (t : LanguageTag) : List String :=
  t.language :: t.extlang ++ t.script.toList ++ t.region.toList ++
    t.variants ++ extTokens t.extensions ++ puTokens t.privateuse

/-- Joins a tag's tokens with `-` delimiters. -/
def serialize (t : LanguageTag) : String :=
  ⟨intercalateDash ((tokensOf t).map String.data)⟩

/-- Modelled from the spec: `as_bcp47()` returns the canonical
serialization of the tag. -/
def asBcp47 (t : LanguageTag) : String :=
  serialize (canonicalize t)

/-- Calling `AsBCP47::as_bcp47` on a tag (receiver taken by `&self`). -/
def asBcp47Call (t : LanguageTag) : String × LanguageTag :=
  (asBcp47 t, t)

/-! ### Options Merger and the `Locale` constructor
(spec sections 4.4 and RFC 002) -/

/-- The `Opt` enum of RFC 002: overriding options for the `Locale`
constructor. -/
inductive Opt where
  | Script (value : String)
  | Region (value : String)
  | HourCycle (value : String)
  | Calendar (value : String)
deriving DecidableEq, Repr

/-- The tag field named by an invalid override. -/
inductive OptField where
  | script
  | region
deriving DecidableEq, Repr

/-- Modelled from the spec: merge errors — an override value failing its
slot's shape validation, or an unrecognized keyword option value. -/
inductive MergeError where
  | InvalidOverride (field : OptField) (value : String)
  | UnknownOption (option : String) (value : String)
deriving DecidableEq, Repr

/-- Recognized hour-cycle keyword values. -/
def hourCycleVals : List String :=
  ["h11", "h12", "h23", "h24"]

/-- Recognized calendar keyword values. -/
def calendarVals : List String :=
  ["buddhist", "chinese", "gregory", "iso8601", "japanese"]

/-- Modelled from the spec: the public `Locale` object — a `LanguageTag`
plus resolved hour-cycle and calendar overrides. -/
structure Locale where
  tag : LanguageTag
  hourCycle : Option String
  calendar : Option String
deriving DecidableEq, Repr

/-- Applies one override option, validating it (spec section 4.4). -/
def applyOpt (l : Locale) (o : Opt) : Except MergeError Locale :=
  match o with
  | .Script s =>
    if isScriptTok s then .ok { l with tag := { l.tag with script := some s } }
    else .error (.InvalidOverride .script s)
  | .Region r =>
    if isRegionTok r then .ok { l with tag := { l.tag with region := some r } }
    else .error (.InvalidOverride .region r)
  | .HourCycle h =>
    if hourCycleVals.contains h then .ok { l with hourCycle := some h }
    else .error (.UnknownOption "hourCycle" h)
  | .Calendar c =>
    if calendarVals.contains c then .ok { l with calendar := some c }
    else .error (.UnknownOption "calendar" c)

/-- Modelled from the spec: `merge(base, options)` applies the override
options left to right onto the parsed base tag. -/
def merge (base : LanguageTag) (opts : List Opt) : Except MergeError Locale :=
  opts.foldlM applyOpt { tag := base, hourCycle := none, calendar := none }

/-- Construction errors of the full `Locale` constructor. -/
inductive NewError where
  | scanErr (e : ScanError)
  | parseErr (e : ParseError)
  | mergeErr (e : MergeError)
deriving DecidableEq, Repr

/-- Lifts a parse-pipeline error into a constructor error. -/
def liftTagError : LocaleError → NewError
  | .scanErr e => .scanErr e
  | .parseErr e => .parseErr e

/-- Modelled from the spec: the `Locale::new` constructor of RFC 002 —
parse the base tag, then apply the Options Merger; every stage fails
fast, and no `Locale` value is produced on error. -/
def Locale.new (tag : String) (opts : List Opt) : Except NewError Locale :=
  match parseTag tag with
  | .error e => .error (liftTagError e)
  | .ok t => (merge t opts).mapError .mergeErr

/-- Calling `as_bcp47` on a constructed `Locale` (overrides were applied
after parsing, before canonicalization). -/
def Locale.asBcp47 (l : Locale) : String :=
  RustDiscuss.asBcp47 l.tag

/-! ### Validity of structured tags (spec section 3 invariants) -/

/-- Shape of one extension entry: alphanumeric singleton other than the
private-use introducer, with a nonempty list of value subtags. -/
def extOK (e : Char × List String) : Bool :=
  isAsciiAlphanum e.1 && !(lowerChar e.1 == 'x') && !e.2.isEmpty &&
    e.2.all isExtValTok

/-- Shape of the private-use component: when present, a nonempty list of
scanner-shaped subtags. -/
def puOK : Option (List String) → Bool
  | none => true
  | some vs => !vs.isEmpty && vs.all (fun v => tokOK v.data)

/-- The per-field shape invariants of a structured tag: every subtag
conforms to its slot's length / charset rule, at most three extlangs,
and no case-insensitive duplicate variants. -/
def ValidShape (t : LanguageTag) : Bool :=
  isLangTok t.language &&
  (t.extlang.length ≤ 3) && t.extlang.all isExtlangTok &&
  t.script.all isScriptTok &&
  t.region.all isRegionTok &&
  t.variants.all isVariantTok &&
  (t.variants.map lowerStr).Nodup &&
  t.extensions.all extOK &&
  puOK t.privateuse

/-- When both script and region are absent, the first serialized variant
must not itself be script-shaped, or re-parsing would capture it in the
script slot. -/
def headVariantOK (t : LanguageTag) : Bool :=
  !(t.script.isNone && t.region.isNone) ||
    (match t.variants with
     | [] => true
     | v :: _ => !isScriptTok v)

/-- When both script and region are absent, no variant at all is
script-shaped (stable under the canonicalizer's variant sorting). -/
def noScriptShapedVariant (t : LanguageTag) : Bool :=
  !(t.script.isNone && t.region.isNone) ||
    t.variants.all (fun v => !isScriptTok v)

/-- A `Locale` in a valid state: valid tag shapes and recognized
keyword override values. -/
def ValidLocale (l : Locale) : Bool :=
  ValidShape l.tag &&
  l.hourCycle.all (fun h => hourCycleVals.contains h) &&
  l.calendar.all (fun c => calendarVals.contains c)

/-! ### The visitation contract of `for_each_variant`

The trait documentation fixes only that the visitor is invoked once per
variant and that iteration order is unspecified; no implementation in
the repository pins an order. -/

/-- Modelled from the spec: one permitted run of `for_each_variant` —
the visitor is invoked exactly once per stored variant, in an
unspecified order, so the sequence of visited values is some permutation
of the stored variants. -/
def VisitRun (id : TestID) (visited : List String) : Prop :=
  visited.Perm id.variants

/-! ### The RFC 002 `Locale` trait surface

In `rfc/002-ecma-402`, `language()`, `region()` and `script()` are
declared without a `self` receiver: they are associated functions of the
implementing type.  An implementation of the trait is embedded as a
record of its items. -/

/-- An implementation of the RFC 002 `Locale` trait for a carrier type
`T` with error type `E`: the constructor, and the three receiverless
accessors, which are single values of the implementation rather than
functions of an instance. -/
structure RfcLocaleImpl (T : Type) (E : Type) where
  new : String → List Opt → Except E T
  language : Option String
  region : Option String
  script : Option String

/-- Invoking `language()` "on" a constructed locale value: the trait
gives the accessor no receiver, so the instance argument cannot be
consulted. -/
def rfcLanguageOf {T E : Type} (impl : RfcLocaleImpl T E) (_loc : T) :
    Option String :=
  impl.language

/-- Invoking `region()` "on" a constructed locale value. -/
def rfcRegionOf {T E : Type} (impl : RfcLocaleImpl T E) (_loc : T) :
    Option String :=
  impl.region

/-- Invoking `script()` "on" a constructed locale value. -/
def rfcScriptOf {T E : Type} (impl : RfcLocaleImpl T E) (_loc : T) :
    Option String :=
  impl.script

/-! ## Lemmas: case mapping of characters -/

theorem lowerChar_idem (c : Char) : lowerChar (lowerChar c) = lowerChar c := by
  cases h : lowerPairs.find? (fun p => p.1 == c) with
  | none =>
    have hc : lowerChar c = c := by simp [lowerChar, h]
    rw [hc]
    exact hc
  | some p =>
    have hc : lowerChar c = p.2 := by simp [lowerChar, h]
    have hfix : ∀ q ∈ lowerPairs, lowerChar q.2 = q.2 := by decide
    rw [hc]
    exact hfix p (List.mem_of_find?_eq_some h)

theorem upperChar_idem (c : Char) : upperChar (upperChar c) = upperChar c := by
  cases h : upperPairs.find? (fun p => p.1 == c) with
  | none =>
    have hc : upperChar c = c := by simp [upperChar, h]
    rw [hc]
    exact hc
  | some p =>
    have hc : upperChar c = p.2 := by simp [upperChar, h]
    have hfix : ∀ q ∈ upperPairs, upperChar q.2 = q.2 := by decide
    rw [hc]
    exact hfix p (List.mem_of_find?_eq_some h)

theorem isAsciiAlpha_lowerChar (c : Char) :
    isAsciiAlpha (lowerChar c) = isAsciiAlpha c := by
  cases h : lowerPairs.find? (fun p => p.1 == c) with
  | none =>
    have hc : lowerChar c = c := by simp [lowerChar, h]
    rw [hc]
  | some p =>
    have hc : lowerChar c = p.2 := by simp [lowerChar, h]
    have hpc : p.1 = c := by simpa using List.find?_some h
    have halpha : ∀ q ∈ lowerPairs,
        isAsciiAlpha q.1 = true ∧ isAsciiAlpha q.2 = true := by decide
    have hmem := List.mem_of_find?_eq_some h
    rw [hc, ← hpc, (halpha p hmem).1, (halpha p hmem).2]

theorem isAsciiDigit_lowerChar (c : Char) :
    isAsciiDigit (lowerChar c) = isAsciiDigit c := by
  cases h : lowerPairs.find? (fun p => p.1 == c) with
  | none =>
    have hc : lowerChar c = c := by simp [lowerChar, h]
    rw [hc]
  | some p =>
    have hc : lowerChar c = p.2 := by simp [lowerChar, h]
    have hpc : p.1 = c := by simpa using List.find?_some h
    have hdig : ∀ q ∈ lowerPairs,
        isAsciiDigit q.1 = false ∧ isAsciiDigit q.2 = false := by decide
    have hmem := List.mem_of_find?_eq_some h
    rw [hc, ← hpc, (hdig p hmem).1, (hdig p hmem).2]

theorem isAsciiAlphanum_lowerChar (c : Char) :
    isAsciiAlphanum (lowerChar c) = isAsciiAlphanum c := by
  simp [isAsciiAlphanum, isAsciiAlpha_lowerChar, isAsciiDigit_lowerChar]

theorem isAsciiAlpha_upperChar (c : Char) :
    isAsciiAlpha (upperChar c) = isAsciiAlpha c := by
  cases h : upperPairs.find? (fun p => p.1 == c) with
  | none =>
    have hc : upperChar c = c := by simp [upperChar, h]
    rw [hc]
  | some p =>
    have hc : upperChar c = p.2 := by simp [upperChar, h]
    have hpc : p.1 = c := by simpa using List.find?_some h
    have halpha : ∀ q ∈ upperPairs,
        isAsciiAlpha q.1 = true ∧ isAsciiAlpha q.2 = true := by decide
    have hmem := List.mem_of_find?_eq_some h
    rw [hc, ← hpc, (halpha p hmem).1, (halpha p hmem).2]

theorem isAsciiDigit_upperChar (c : Char) :
    isAsciiDigit (upperChar c) = isAsciiDigit c := by
  cases h : upperPairs.find? (fun p => p.1 == c) with
  | none =>
    have hc : upperChar c = c := by simp [upperChar, h]
    rw [hc]
  | some p =>
    have hc : upperChar c = p.2 := by simp [upperChar, h]
    have hpc : p.1 = c := by simpa using List.find?_some h
    have hdig : ∀ q ∈ upperPairs,
        isAsciiDigit q.1 = false ∧ isAsciiDigit q.2 = false := by decide
    have hmem := List.mem_of_find?_eq_some h
    rw [hc, ← hpc, (hdig p hmem).1, (hdig p hmem).2]

theorem isAsciiAlphanum_upperChar (c : Char) :
    isAsciiAlphanum (upperChar c) = isAsciiAlphanum c := by
  simp [isAsciiAlphanum, isAsciiAlpha_upperChar, isAsciiDigit_upperChar]

/-! ## Lemmas: case mapping of strings -/

theorem all_congr_fun {α : Type} {p q : α → Bool} (h : ∀ a, p a = q a) :
    ∀ l : List α, l.all p = l.all q
  | [] => rfl
  | a :: l => by
    simp only [List.all_cons, h a, all_congr_fun h l]

theorem map_congr_fun {α β : Type} {f g : α → β} (h : ∀ a, f a = g a) :
    ∀ l : List α, l.map f = l.map g
  | [] => rfl
  | a :: l => by
    simp only [List.map_cons, h a, map_congr_fun h l]

theorem lowerStr_data (s : String) :
    (lowerStr s).data = s.data.map lowerChar := rfl

theorem upperStr_data (s : String) :
    (upperStr s).data = s.data.map upperChar := rfl

theorem map_self_idem {α : Type} {f : α → α} (h : ∀ a, f (f a) = f a) :
    ∀ l : List α, (l.map f).map f = l.map f
  | [] => rfl
  | a :: l => by
    simp only [List.map_cons, h a, map_self_idem h l]

theorem lowerStr_idem (s : String) : lowerStr (lowerStr s) = lowerStr s := by
  apply String.ext
  rw [lowerStr_data, lowerStr_data]
  exact map_self_idem (fun a => lowerChar_idem a) s.data

theorem upperStr_idem (s : String) : upperStr (upperStr s) = upperStr s := by
  apply String.ext
  rw [upperStr_data, upperStr_data]
  exact map_self_idem (fun a => upperChar_idem a) s.data

theorem length_lowerStr (s : String) :
    (lowerStr s).data.length = s.data.length := by
  rw [lowerStr_data, List.length_map]

theorem length_upperStr (s : String) :
    (upperStr s).data.length = s.data.length := by
  rw [upperStr_data, List.length_map]

theorem all_alpha_lowerStr (s : String) :
    (lowerStr s).data.all isAsciiAlpha = s.data.all isAsciiAlpha := by
  rw [lowerStr_data, List.all_map]
  exact all_congr_fun (fun a => isAsciiAlpha_lowerChar a) s.data

theorem all_alnum_lowerStr (s : String) :
    (lowerStr s).data.all isAsciiAlphanum = s.data.all isAsciiAlphanum := by
  rw [lowerStr_data, List.all_map]
  exact all_congr_fun (fun a => isAsciiAlphanum_lowerChar a) s.data

theorem all_alpha_upperStr (s : String) :
    (upperStr s).data.all isAsciiAlpha = s.data.all isAsciiAlpha := by
  rw [upperStr_data, List.all_map]
  exact all_congr_fun (fun a => isAsciiAlpha_upperChar a) s.data

theorem all_digit_upperStr (s : String) :
    (upperStr s).data.all isAsciiDigit = s.data.all isAsciiDigit := by
  rw [upperStr_data, List.all_map]
  exact all_congr_fun (fun a => isAsciiDigit_upperChar a) s.data

theorem isLangTok_lowerStr (s : String) :
    isLangTok (lowerStr s) = isLangTok s := by
  unfold isLangTok
  rw [length_lowerStr, all_alpha_lowerStr]

theorem isExtlangTok_lowerStr (s : String) :
    isExtlangTok (lowerStr s) = isExtlangTok s := by
  unfold isExtlangTok
  rw [length_lowerStr, all_alpha_lowerStr]

theorem isVariantTok_lowerStr (s : String) :
    isVariantTok (lowerStr s) = isVariantTok s := by
  unfold isVariantTok
  rw [length_lowerStr, all_alnum_lowerStr]

theorem isScriptTok_lowerStr (s : String) :
    isScriptTok (lowerStr s) = isScriptTok s := by
  unfold isScriptTok
  rw [length_lowerStr, all_alpha_lowerStr]

theorem isRegionTok_upperStr (s : String) :
    isRegionTok (upperStr s) = isRegionTok s := by
  unfold isRegionTok
  rw [length_upperStr, all_alpha_upperStr, all_digit_upperStr]

theorem titleStr_data (s : String) :
    (titleStr s).data =
      match s.data with
      | [] => []
      | c :: cs => upperChar c :: cs.map lowerChar := by
  unfold titleStr
  cases s.data <;> rfl

theorem titleStr_idem (s : String) : titleStr (titleStr s) = titleStr s := by
  cases hd : s.data with
  | nil =>
    have h1 : titleStr s = ⟨[]⟩ := by
      unfold titleStr
      rw [hd]
    rw [h1]
    rfl
  | cons c cs =>
    have h1 : titleStr s = ⟨upperChar c :: cs.map lowerChar⟩ := by
      unfold titleStr
      rw [hd]
    rw [h1]
    apply String.ext
    show upperChar (upperChar c) :: (cs.map lowerChar).map lowerChar =
      upperChar c :: cs.map lowerChar
    rw [upperChar_idem, map_self_idem (fun a => lowerChar_idem a) cs]

theorem isScriptTok_titleStr (s : String) :
    isScriptTok (titleStr s) = isScriptTok s := by
  cases hd : s.data with
  | nil =>
    have h1 : titleStr s = ⟨[]⟩ := by
      unfold titleStr
      rw [hd]
    rw [h1]
    unfold isScriptTok
    rw [hd]
  | cons c cs =>
    have h1 : titleStr s = ⟨upperChar c :: cs.map lowerChar⟩ := by
      unfold titleStr
      rw [hd]
    rw [h1]
    unfold isScriptTok
    rw [hd]
    show (((upperChar c :: cs.map lowerChar).length == 4) &&
        (upperChar c :: cs.map lowerChar).all isAsciiAlpha) =
      (((c :: cs).length == 4) && (c :: cs).all isAsciiAlpha)
    rw [List.length_cons, List.length_map, List.all_cons, List.all_cons,
      List.all_map, isAsciiAlpha_upperChar,
      @all_congr_fun _ (isAsciiAlpha ∘ lowerChar) isAsciiAlpha
        (fun a => isAsciiAlpha_lowerChar a) cs]
    rw [List.length_cons]

/-! ## Lemmas: folds used by the visitor embedding -/

theorem foldl_snoc_eq : ∀ (l acc : List String),
    l.foldl (fun s v => s ++ [v]) acc = acc ++ l
  | [], acc => by simp
  | a :: l, acc => by
    rw [List.foldl_cons, foldl_snoc_eq l (acc ++ [a])]
    simp

theorem foldl_insert_eq : ∀ (l : List String) (acc : Finset String),
    l.foldl (fun s v => insert v s) acc = acc ∪ l.toFinset
  | [], acc => by simp
  | a :: l, acc => by
    rw [List.foldl_cons, foldl_insert_eq l (insert a acc)]
    rw [List.toFinset_cons, Finset.insert_union, Finset.union_insert]

theorem foldl_count_eq : ∀ (l : List String) (n : Nat),
    l.foldl (fun s _ => s + 1) n = n + l.length
  | [], n => by simp
  | a :: l, n => by
    rw [List.foldl_cons, foldl_count_eq l (n + 1)]
    simp [List.length_cons]
    omega

/-! ## Claim theorems: the identifier surface -/

/-- C1: for every language identifier, the `language()` accessor never
returns an empty value, and when the language subtag is empty or unset it
returns the `"und"` sentinel. -/
theorem c1_language_never_empty (t : LanguageTag) :
    languageOf t ≠ "" ∧ (t.language = "" → languageOf t = "und") := by
  refine ⟨?_, fun h => by simp [languageOf, h]⟩
  by_cases h : t.language = ""
  · simp [languageOf, h]
  · simp [languageOf, h]

/-- Witness for C1: on a tag whose language subtag is the empty string,
`language()` returns `"und"` and is not empty. -/
theorem c1_language_never_empty_witness :
    languageOf { language := "", extlang := [], script := none, region := none,
                 variants := [], extensions := [], privateuse := none } = "und" ∧
    languageOf { language := "", extlang := [], script := none, region := none,
                 variants := [], extensions := [], privateuse := none } ≠ "" :=
  ⟨(c1_language_never_empty _).2 rfl, (c1_language_never_empty _).1⟩

/-- C2: `for_each_variant` invokes the supplied visitor exactly once per
stored variant — a sequence-collecting visitor receives exactly the stored
variant list — so a set-collecting visitor yields exactly the set of the
identifier's variants. -/
theorem c2_for_each_variant_visits_each_once (id : TestID) :
    id.for_each_variant (fun v l => l ++ [v]) [] = id.variants ∧
    id.for_each_variant (fun v s => insert v s) (∅ : Finset String) =
      id.variants.toFinset := by
  constructor
  · unfold TestID.for_each_variant
    rw [foldl_snoc_eq]
    simp
  · unfold TestID.for_each_variant
    rw [foldl_insert_eq]
    simp

/-- C3: `num_variants()` returns the stored count of variants, which equals
the number of visitor invocations `for_each_variant` makes (observed by a
counting visitor). -/
theorem c3_num_variants_matches_visits (id : TestID) :
    id.num_variants = id.variants.length ∧
    id.num_variants = id.for_each_variant (fun _ n => n + 1) 0 := by
  refine ⟨rfl, ?_⟩
  unfold TestID.for_each_variant TestID.num_variants
  rw [foldl_count_eq]
  simp

/-- C4: the visitation contract of `for_each_variant` leaves the iteration
order unspecified — there is an identifier with at least two variants and
two permitted runs visiting in different orders while agreeing as sets. -/
theorem c4_visitation_order_not_fixed :
    ∃ (id : TestID) (r1 r2 : List String),
      2 ≤ id.num_variants ∧ VisitRun id r1 ∧ VisitRun id r2 ∧
      r1 ≠ r2 ∧ r1.toFinset = r2.toFinset := by
  refine ⟨{ language := "en", region := none, script := none,
            variants := ["east_coast", "west_coast"] },
    ["east_coast", "west_coast"], ["west_coast", "east_coast"],
    ?_, ?_, ?_, ?_, ?_⟩
  · decide
  · unfold VisitRun
    decide
  · unfold VisitRun
    decide
  · decide
  · decide

/-- C5: the accessors `language`, `region`, `script`, `num_variants`,
`for_each_variant` and `as_bcp47` take their receiver immutably; each call
leaves every field of the receiver unchanged. -/
theorem c5_accessors_frame {σ : Type} (id : TestID) (t : LanguageTag)
    (f : String → σ → σ) (init : σ) :
    (languageCall id).2 = id ∧ (regionCall id).2 = id ∧
    (scriptCall id).2 = id ∧ (numVariantsCall id).2 = id ∧
    (forEachVariantCall id f init).2 = id ∧ (asBcp47Call t).2 = t :=
  ⟨rfl, rfl, rfl, rfl, rfl, rfl⟩

/-- C10: in the RFC 002 `Locale` trait, `language()`, `region()` and
`script()` take no receiver, so for any implementation their values agree
on any two constructed instances — whatever tag strings and options those
instances were built from, the accessors cannot depend on them. -/
theorem c10_rfc_accessors_ignore_instance {T E : Type}
    (impl : RfcLocaleImpl T E) (a b : T) :
    rfcLanguageOf impl a = rfcLanguageOf impl b ∧
    rfcRegionOf impl a = rfcRegionOf impl b ∧
    rfcScriptOf impl a = rfcScriptOf impl b :=
  ⟨rfl, rfl, rfl⟩

/-! ## Lemmas: idempotence of canonicalization -/

theorem map_id_of_fix {α : Type} {f : α → α} :
    ∀ l : List α, (∀ x ∈ l, f x = x) → l.map f = l
  | [], _ => rfl
  | a :: l, h => by
    rw [List.map_cons, h a (List.mem_cons_self a l),
      map_id_of_fix l (fun x hx => h x (List.mem_cons_of_mem a hx))]

theorem option_map_self_idem {α : Type} {f : α → α} (h : ∀ a, f (f a) = f a) :
    ∀ o : Option α, (o.map f).map f = o.map f
  | none => rfl
  | some a => by
    show some (f (f a)) = some (f a)
    rw [h a]

theorem canonLang_idem (s : String) : canonLang (canonLang s) = canonLang s := by
  by_cases h1 : lowerStr s = "iw"
  · have e : canonLang s = "he" := by
      unfold canonLang aliasLang
      rw [if_pos h1]
    rw [e]
    decide
  · by_cases h2 : lowerStr s = "in"
    · have e : canonLang s = "id" := by
        unfold canonLang aliasLang
        rw [if_neg h1, if_pos h2]
      rw [e]
      decide
    · by_cases h3 : lowerStr s = "ji"
      · have e : canonLang s = "yi" := by
          unfold canonLang aliasLang
          rw [if_neg h1, if_neg h2, if_pos h3]
        rw [e]
        decide
      · have e : canonLang s = lowerStr s := by
          unfold canonLang aliasLang
          rw [if_neg h1, if_neg h2, if_neg h3]
        rw [e]
        unfold canonLang aliasLang
        rw [lowerStr_idem, if_neg h1, if_neg h2, if_neg h3]

theorem canonRegion_idem (s : String) :
    canonRegion (canonRegion s) = canonRegion s := by
  by_cases h1 : upperStr s = "BU"
  · have e : canonRegion s = "MM" := by
      unfold canonRegion aliasRegion
      rw [if_pos h1]
    rw [e]
    decide
  · by_cases h2 : upperStr s = "DD"
    · have e : canonRegion s = "DE" := by
        unfold canonRegion aliasRegion
        rw [if_neg h1, if_pos h2]
      rw [e]
      decide
    · have e : canonRegion s = upperStr s := by
        unfold canonRegion aliasRegion
        rw [if_neg h1, if_neg h2]
      rw [e]
      unfold canonRegion aliasRegion
      rw [upperStr_idem, if_neg h1, if_neg h2]

theorem canonVariant_idem (v : String) :
    canonVariant (canonVariant v) = canonVariant v := by
  by_cases h : lowerStr v = "heploc"
  · have e : canonVariant v = "alalc97" := by
      unfold canonVariant aliasVariant
      rw [if_pos h]
    rw [e]
    decide
  · have e : canonVariant v = lowerStr v := by
      unfold canonVariant aliasVariant
      rw [if_neg h]
    rw [e]
    unfold canonVariant aliasVariant
    rw [lowerStr_idem, if_neg h]

theorem canonExt_idem (e : Char × List String) :
    canonExt (canonExt e) = canonExt e := by
  show (lowerChar (lowerChar e.1), (e.2.map lowerStr).map lowerStr) =
    (lowerChar e.1, e.2.map lowerStr)
  rw [lowerChar_idem, map_self_idem (fun a => lowerStr_idem a) e.2]

theorem canonVariantsList_idem (vs : List String) :
    canonVariantsList (canonVariantsList vs) = canonVariantsList vs := by
  have hsorted : List.Sorted strLE ((vs.map canonVariant).insertionSort strLE) :=
    List.sorted_insertionSort strLE _
  have hLsorted : List.Sorted strLE (canonVariantsList vs) :=
    List.Pairwise.sublist (List.dedup_sublist _) hsorted
  have hnodup : (canonVariantsList vs).Nodup := List.nodup_dedup _
  have hfix : ∀ x ∈ canonVariantsList vs, canonVariant x = x := by
    intro x hx
    have hx1 : x ∈ (vs.map canonVariant).insertionSort strLE :=
      List.mem_dedup.mp hx
    have hx2 : x ∈ vs.map canonVariant :=
      (List.perm_insertionSort strLE (vs.map canonVariant)).mem_iff.mp hx1
    obtain ⟨v, _, rfl⟩ := List.mem_map.mp hx2
    exact canonVariant_idem v
  show (((canonVariantsList vs).map canonVariant).insertionSort strLE).dedup =
    canonVariantsList vs
  rw [map_id_of_fix _ hfix, List.Sorted.insertionSort_eq hLsorted,
    List.dedup_eq_self.mpr hnodup]

theorem canonExtsList_idem (es : List (Char × List String)) :
    canonExtsList (canonExtsList es) = canonExtsList es := by
  have hsorted : List.Sorted extLE (canonExtsList es) :=
    List.sorted_insertionSort extLE _
  have hfix : ∀ x ∈ canonExtsList es, canonExt x = x := by
    intro x hx
    have hx2 : x ∈ es.map canonExt :=
      (List.perm_insertionSort extLE (es.map canonExt)).mem_iff.mp hx
    obtain ⟨e, _, rfl⟩ := List.mem_map.mp hx2
    exact canonExt_idem e
  show ((canonExtsList es).map canonExt).insertionSort extLE = canonExtsList es
  rw [map_id_of_fix _ hfix, List.Sorted.insertionSort_eq hsorted]

/-- Idempotence of the canonicalizer, proved for every structured tag. -/
theorem canonicalize_idem (t : LanguageTag) :
    canonicalize (canonicalize t) = canonicalize t := by
  show LanguageTag.mk (canonLang (canonLang t.language))
      ((t.extlang.map lowerStr).map lowerStr)
      ((t.script.map titleStr).map titleStr)
      ((t.region.map canonRegion).map canonRegion)
      (canonVariantsList (canonVariantsList t.variants))
      (canonExtsList (canonExtsList t.extensions))
      ((t.privateuse.map (fun vs => vs.map lowerStr)).map
        (fun vs => vs.map lowerStr)) =
    LanguageTag.mk (canonLang t.language) (t.extlang.map lowerStr)
      (t.script.map titleStr) (t.region.map canonRegion)
      (canonVariantsList t.variants) (canonExtsList t.extensions)
      (t.privateuse.map (fun vs => vs.map lowerStr))
  rw [canonLang_idem,
    map_self_idem (fun a => lowerStr_idem a) t.extlang,
    option_map_self_idem (fun a => titleStr_idem a) t.script,
    option_map_self_idem (fun a => canonRegion_idem a) t.region,
    canonVariantsList_idem t.variants,
    canonExtsList_idem t.extensions,
    option_map_self_idem (fun a => map_self_idem (fun b => lowerStr_idem b) a)
      t.privateuse]

/-- C6: canonicalization is idempotent — canonicalizing an already
canonicalized tag changes nothing (proved for every structured tag, in
particular every valid one). -/
theorem c6_canonicalize_idempotent (t : LanguageTag) :
    canonicalize (canonicalize t) = canonicalize t :=
  canonicalize_idem t

/-! ## Lemmas: the scanner inverts the serializer's token joiner -/

theorem splitDash_no_dash : ∀ p : List Char, '-' ∉ p → splitDash p = [p]
  | [], _ => rfl
  | c :: rest, h => by
    have hc : ¬(c = '-') := fun hh => h (List.mem_cons.mpr (Or.inl hh.symm))
    have hrest : '-' ∉ rest := fun hm => h (List.mem_cons_of_mem c hm)
    unfold splitDash
    rw [if_neg hc, splitDash_no_dash rest hrest]

theorem splitDash_append : ∀ (p cs : List Char), '-' ∉ p →
    splitDash (p ++ '-' :: cs) = p :: splitDash cs
  | [], cs, _ => by
    show splitDash ('-' :: cs) = [] :: splitDash cs
    conv_lhs => rw [splitDash]
    rw [if_pos rfl]
  | c :: rest, cs, hp => by
    have hc : ¬(c = '-') := fun hh => hp (List.mem_cons.mpr (Or.inl hh.symm))
    have hrest : '-' ∉ rest := fun hm => hp (List.mem_cons_of_mem c hm)
    show splitDash (c :: (rest ++ '-' :: cs)) = (c :: rest) :: splitDash cs
    conv_lhs => rw [splitDash]
    rw [if_neg hc, splitDash_append rest cs hrest]

theorem splitDash_intercalate : ∀ parts : List (List Char),
    parts ≠ [] → (∀ p ∈ parts, '-' ∉ p) →
    splitDash (intercalateDash parts) = parts
  | [], h, _ => absurd rfl h
  | [p], _, hp => by
    show splitDash p = [p]
    exact splitDash_no_dash p (hp p (List.mem_cons_self p []))
  | p :: q :: ps, _, hp => by
    show splitDash (p ++ '-' :: intercalateDash (q :: ps)) = p :: q :: ps
    rw [splitDash_append p _ (hp p (List.mem_cons_self p _)),
      splitDash_intercalate (q :: ps) (by simp)
        (fun r hr => hp r (List.mem_cons_of_mem p hr))]

theorem intercalateDash_ne_nil (p : List Char) (ps : List (List Char))
    (hp : p ≠ []) : intercalateDash (p :: ps) ≠ [] := by
  cases ps with
  | nil => simpa [intercalateDash] using hp
  | cons q ps =>
    show p ++ '-' :: intercalateDash (q :: ps) ≠ []
    simp

theorem checkToks_ok : ∀ (ps : List (List Char)) (i : Nat),
    (∀ p ∈ ps, tokOK p = true) →
    checkToks i ps = .ok (ps.map (fun p => (⟨p⟩ : String)))
  | [], _, _ => rfl
  | p :: ps, i, h => by
    unfold checkToks
    rw [if_pos (h p (List.mem_cons_self p ps)),
      checkToks_ok ps (i + 1) (fun q hq => h q (List.mem_cons_of_mem p hq))]
    rfl

theorem tokOK_ne_nil (p : List Char) (h : tokOK p = true) : p ≠ [] := by
  intro hp
  rw [hp] at h
  exact absurd h (by decide)

theorem tokOK_no_dash (p : List Char) (h : tokOK p = true) : '-' ∉ p := by
  intro hm
  unfold tokOK at h
  simp only [Bool.and_eq_true] at h
  have := List.all_eq_true.mp h.2 '-' hm
  exact absurd this (by decide)

theorem scan_of_tokens (ts : List String) (hne : ts ≠ [])
    (htok : ∀ t ∈ ts, tokOK t.data = true) :
    scan ⟨intercalateDash (ts.map String.data)⟩ = .ok ts := by
  cases ts with
  | nil => exact absurd rfl hne
  | cons t0 ts2 =>
    have h0 : tokOK t0.data = true := htok t0 (List.mem_cons_self t0 ts2)
    have hone : intercalateDash ((t0 :: ts2).map String.data) ≠ [] := by
      show intercalateDash (t0.data :: ts2.map String.data) ≠ []
      exact intercalateDash_ne_nil t0.data _ (tokOK_ne_nil t0.data h0)
    unfold scan
    rw [if_neg (by simpa [List.isEmpty_iff] using hone)]
    rw [splitDash_intercalate ((t0 :: ts2).map String.data) (by simp)
      (by
        intro p hp
        obtain ⟨t, ht, rfl⟩ := List.mem_map.mp hp
        exact tokOK_no_dash t.data (htok t ht))]
    rw [checkToks_ok ((t0 :: ts2).map String.data) 0
      (by
        intro p hp
        obtain ⟨t, ht, rfl⟩ := List.mem_map.mp hp
        exact htok t ht)]
    rw [List.map_map]
    exact congrArg Except.ok (map_id_of_fix (t0 :: ts2) (fun t ht => rfl))

/-! ## Lemmas: elementary facts about `Except` and token shapes -/

theorem except_bind_ok {ε α β : Type} (a : α) (f : α → Except ε β) :
    (Except.ok a : Except ε α).bind f = f a := rfl

theorem not_alpha_of_digit (ch : Char) (h : isAsciiDigit ch = true) :
    isAsciiAlpha ch = false := by
  unfold isAsciiDigit at h
  unfold isAsciiAlpha
  simp only [Bool.and_eq_true, decide_eq_true_eq] at h
  have hA : ¬('A' ≤ ch) := fun hle => absurd (le_trans hle h.2) (by decide)
  have ha : ¬('a' ≤ ch) := fun hle => absurd (le_trans hle h.2) (by decide)
  simp [hA, ha]

theorem not_extlang_of_script (s : String) (h : isScriptTok s = true) :
    isExtlangTok s = false := by
  unfold isScriptTok at h
  unfold isExtlangTok
  simp only [Bool.and_eq_true, beq_iff_eq] at h
  rw [h.1]
  simp

theorem not_extlang_of_region (r : String) (h : isRegionTok r = true) :
    isExtlangTok r = false := by
  unfold isRegionTok at h
  unfold isExtlangTok
  simp only [Bool.or_eq_true, Bool.and_eq_true, beq_iff_eq] at h
  rcases h with h | h
  · rw [h.1]
    simp
  · rw [h.1]
    obtain ⟨a, l, ha⟩ : ∃ a l, r.data = a :: l := by
      cases hd : r.data with
      | nil => rw [hd] at h; exact absurd h.1 (by decide)
      | cons a l => exact ⟨a, l, rfl⟩
    cases hall : r.data.all isAsciiAlpha with
    | false => simp
    | true =>
      have halla := List.all_eq_true.mp hall a (ha ▸ List.mem_cons_self a l)
      have hdig := List.all_eq_true.mp h.2 a (ha ▸ List.mem_cons_self a l)
      rw [not_alpha_of_digit a hdig] at halla
      exact absurd halla (by decide)

theorem not_extlang_of_variant (v : String) (h : isVariantTok v = true) :
    isExtlangTok v = false := by
  unfold isVariantTok at h
  unfold isExtlangTok
  simp only [Bool.and_eq_true, decide_eq_true_eq] at h
  have h3 : v.data.length ≠ 3 := by omega
  rw [beq_eq_false_iff_ne.mpr h3, Bool.false_and]

theorem not_script_of_region (r : String) (h : isRegionTok r = true) :
    isScriptTok r = false := by
  unfold isRegionTok at h
  unfold isScriptTok
  simp only [Bool.or_eq_true, Bool.and_eq_true, beq_iff_eq] at h
  rcases h with h | h <;> rw [h.1] <;> simp

theorem not_region_of_variant (v : String) (h : isVariantTok v = true) :
    isRegionTok v = false := by
  unfold isVariantTok at h
  unfold isRegionTok
  simp only [Bool.and_eq_true, decide_eq_true_eq] at h
  have h2 : v.data.length ≠ 2 := by omega
  have h3 : v.data.length ≠ 3 := by omega
  rw [beq_eq_false_iff_ne.mpr h2, beq_eq_false_iff_ne.mpr h3,
    Bool.false_and, Bool.false_and, Bool.or_self]

theorem not_extlang_of_len1 (t : String) (h : t.data.length = 1) :
    isExtlangTok t = false := by
  unfold isExtlangTok
  rw [h]
  simp

theorem not_script_of_len1 (t : String) (h : t.data.length = 1) :
    isScriptTok t = false := by
  unfold isScriptTok
  rw [h]
  simp

theorem not_region_of_len1 (t : String) (h : t.data.length = 1) :
    isRegionTok t = false := by
  unfold isRegionTok
  rw [h]
  simp

theorem not_variant_of_len1 (t : String) (h : t.data.length = 1) :
    isVariantTok t = false := by
  unfold isVariantTok
  rw [h]
  simp

/-! ## Lemmas: the parser phases consume exactly the serialized tokens -/

theorem stop_append {p : String → Bool} (L1 L2 : List String)
    (h1 : ∀ t, L1.head? = some t → p t = false)
    (h2 : L1 = [] → ∀ t, L2.head? = some t → p t = false) :
    ∀ t, (L1 ++ L2).head? = some t → p t = false := by
  cases L1 with
  | nil =>
    intro t ht
    exact h2 rfl t ht
  | cons a l =>
    intro t ht
    have hat : a = t := by simpa using ht
    exact hat ▸ h1 a rfl

theorem extTokens_head (es : List (Char × List String)) :
    ∀ t, (extTokens es).head? = some t → t.data.length = 1 := by
  cases es with
  | nil =>
    intro t ht
    simp [extTokens] at ht
  | cons e es2 =>
    intro t ht
    have he : (⟨[e.1]⟩ : String) = t := by
      simpa [extTokens] using ht
    rw [← he]
    rfl

theorem puTokens_head (pu : Option (List String)) :
    ∀ t, (puTokens pu).head? = some t → t.data.length = 1 := by
  cases pu with
  | none =>
    intro t ht
    simp [puTokens] at ht
  | some vs =>
    intro t ht
    have he : ("x" : String) = t := by
      simpa [puTokens] using ht
    rw [← he]
    decide

theorem parseExtlangAux_exact : ∀ (es : List String) (n : Nat)
    (rest : List String), es.length ≤ n →
    (∀ e ∈ es, isExtlangTok e = true) →
    (∀ t, rest.head? = some t → isExtlangTok t = false) →
    parseExtlangAux n (es ++ rest) = (es, rest)
  | [], n, rest, _, _, hstop => by
    cases n with
    | zero => rfl
    | succ m =>
      cases rest with
      | nil => rfl
      | cons t r =>
        show parseExtlangAux (m + 1) (t :: r) = ([], t :: r)
        unfold parseExtlangAux
        rw [if_neg (by simp [hstop t rfl])]
  | e :: es2, n, rest, hlen, hall, hstop => by
    cases n with
    | zero => exact absurd hlen (by simp)
    | succ m =>
      show parseExtlangAux (m + 1) (e :: (es2 ++ rest)) = (e :: es2, rest)
      unfold parseExtlangAux
      rw [if_pos (hall e (List.mem_cons_self e es2)),
        parseExtlangAux_exact es2 m rest (by simpa using hlen)
          (fun x hx => hall x (List.mem_cons_of_mem e hx)) hstop]

theorem peekOpt_hit (p : String → Bool) (t : String) (rest : List String)
    (h : p t = true) : peekOpt p (t :: rest) = (some t, rest) := by
  show (if p t = true then (some t, rest) else (none, t :: rest)) =
    (some t, rest)
  rw [if_pos h]

theorem peekOpt_stop (p : String → Bool) (ts : List String)
    (h : ∀ t, ts.head? = some t → p t = false) : peekOpt p ts = (none, ts) := by
  cases ts with
  | nil => rfl
  | cons t r =>
    show (if p t = true then (some t, r) else (none, t :: r)) = (none, t :: r)
    rw [if_neg (by simp [h t rfl])]

theorem contains_eq_false_of_not_mem {l : List String} {a : String}
    (h : a ∉ l) : l.contains a = false := by
  cases hc : l.contains a with
  | false => rfl
  | true => exact absurd (List.elem_iff.mp hc) h

theorem parseVarsAux_exact : ∀ (vs acc rest : List String),
    (∀ v ∈ vs, isVariantTok v = true) →
    ((acc ++ vs).map lowerStr).Nodup →
    (∀ t, rest.head? = some t → isVariantTok t = false) →
    parseVarsAux acc (vs ++ rest) = .ok (acc ++ vs, rest)
  | [], acc, rest, _, _, hstop => by
    cases rest with
    | nil =>
      show parseVarsAux acc [] = .ok (acc ++ [], [])
      rw [List.append_nil]
      rfl
    | cons t r =>
      show parseVarsAux acc (t :: r) = .ok (acc ++ [], t :: r)
      rw [List.append_nil]
      unfold parseVarsAux
      rw [if_neg (by simp [hstop t rfl])]
  | v :: vs2, acc, rest, hall, hnodup, hstop => by
    show parseVarsAux acc (v :: (vs2 ++ rest)) = .ok (acc ++ v :: vs2, rest)
    have hnm : lowerStr v ∉ acc.map lowerStr := by
      rw [List.map_append] at hnodup
      have hd := List.disjoint_of_nodup_append hnodup
      intro hmem
      exact hd hmem (by simp)
    unfold parseVarsAux
    rw [if_pos (hall v (List.mem_cons_self v vs2)),
      if_neg (by rw [contains_eq_false_of_not_mem hnm]; exact Bool.false_ne_true)]
    rw [parseVarsAux_exact vs2 (acc ++ [v]) rest
      (fun x hx => hall x (List.mem_cons_of_mem v hx))
      (by rw [← List.append_cons]; exact hnodup) hstop]
    rw [← List.append_cons]

theorem parseExtsAux_nil (cur : Option (Char × List String))
    (acc : List (Char × List String)) :
    parseExtsAux cur acc [] = (flushCur cur acc).map (fun a => (a, none)) :=
  rfl

theorem parseExtsAux_cons_single (cur : Option (Char × List String))
    (acc : List (Char × List String)) (t : String) (rest : List String)
    (hlen : t.data.length = 1) :
    parseExtsAux cur acc (t :: rest) =
      (flushCur cur acc).bind (fun acc2 =>
        if lowerChar (t.data.headD 'x') = 'x' then
          Except.map (fun pu => (acc2, pu)) (parsePrivate rest)
        else parseExtsAux (some (t.data.headD 'x', [])) acc2 rest) := by
  show (if t.data.length = 1 then
      (flushCur cur acc).bind (fun acc2 =>
        if lowerChar (t.data.headD 'x') = 'x' then
          Except.map (fun pu => (acc2, pu)) (parsePrivate rest)
        else parseExtsAux (some (t.data.headD 'x', [])) acc2 rest)
    else
      match cur with
      | some (k, vs) =>
        if isExtValTok t = true then
          parseExtsAux (some (k, vs ++ [t])) acc rest
        else Except.error (ParseError.unexpectedSubtag t Slot.extensionSlot)
      | none => Except.error (ParseError.unexpectedSubtag t Slot.extensionSlot)) =
    _
  rw [if_pos hlen]

theorem parseExtsAux_cons_val (k : Char) (vs0 : List String)
    (acc : List (Char × List String)) (v : String) (rest : List String)
    (hlen : ¬(v.data.length = 1)) (hv : isExtValTok v = true) :
    parseExtsAux (some (k, vs0)) acc (v :: rest) =
      parseExtsAux (some (k, vs0 ++ [v])) acc rest := by
  show (if v.data.length = 1 then
      (flushCur (some (k, vs0)) acc).bind (fun acc2 =>
        if lowerChar (v.data.headD 'x') = 'x' then
          Except.map (fun pu => (acc2, pu)) (parsePrivate rest)
        else parseExtsAux (some (v.data.headD 'x', [])) acc2 rest)
    else
      if isExtValTok v = true then
        parseExtsAux (some (k, vs0 ++ [v])) acc rest
      else Except.error (ParseError.unexpectedSubtag v Slot.extensionSlot)) =
    _
  rw [if_neg hlen, if_pos hv]

theorem parseExtsAux_vals : ∀ (vals : List String) (k : Char)
    (vs0 : List String) (acc : List (Char × List String))
    (rest : List String),
    (∀ v ∈ vals, isExtValTok v = true) →
    parseExtsAux (some (k, vs0)) acc (vals ++ rest) =
      parseExtsAux (some (k, vs0 ++ vals)) acc rest
  | [], k, vs0, acc, rest, _ => by
    rw [List.append_nil]
    rfl
  | v :: vals2, k, vs0, acc, rest, hall => by
    show parseExtsAux (some (k, vs0)) acc (v :: (vals2 ++ rest)) = _
    have hv := hall v (List.mem_cons_self v vals2)
    have hlen : ¬(v.data.length = 1) := by
      unfold isExtValTok at hv
      simp only [Bool.and_eq_true, decide_eq_true_eq] at hv
      omega
    rw [parseExtsAux_cons_val k vs0 acc v (vals2 ++ rest) hlen hv,
      parseExtsAux_vals vals2 k (vs0 ++ [v]) acc rest
        (fun x hx => hall x (List.mem_cons_of_mem v hx))]
    rw [← List.append_cons]

theorem flushCur_vals (k : Char) (v : String) (vs' : List String)
    (acc : List (Char × List String)) :
    flushCur (some (k, v :: vs')) acc = .ok (acc ++ [(k, v :: vs')]) := rfl

theorem flushCur_none (acc : List (Char × List String)) :
    flushCur none acc = .ok acc := rfl

theorem extTokens_cons (e : Char × List String)
    (es2 : List (Char × List String)) :
    extTokens (e :: es2) = ((⟨[e.1]⟩ : String) :: e.2) ++ extTokens es2 := by
  simp [extTokens]

theorem extOK_parts {e : Char × List String} (h : extOK e = true) :
    lowerChar e.1 ≠ 'x' ∧ e.2 ≠ [] ∧ ∀ v ∈ e.2, isExtValTok v = true := by
  unfold extOK at h
  simp only [Bool.and_eq_true] at h
  obtain ⟨⟨⟨_, hx⟩, hne⟩, hvals⟩ := h
  refine ⟨?_, ?_, List.all_eq_true.mp hvals⟩
  · intro hc
    have hb : (lowerChar e.1 == 'x') = true := beq_iff_eq.mpr hc
    rw [hb] at hx
    exact absurd hx (by decide)
  · intro hnil
    rw [hnil] at hne
    exact absurd hne (by decide)

theorem puOK_ne_nil {vs : List String} (h : puOK (some vs) = true) :
    vs ≠ [] := by
  intro hnil
  rw [hnil] at h
  exact absurd h (by decide)

theorem parseExtsAux_main : ∀ (es : List (Char × List String)) (k : Char)
    (vs : List String) (acc : List (Char × List String))
    (pu : Option (List String)),
    vs ≠ [] →
    (∀ e ∈ es, extOK e = true) →
    puOK pu = true →
    parseExtsAux (some (k, vs)) acc (extTokens es ++ puTokens pu) =
      .ok (acc ++ [(k, vs)] ++ es, pu)
  | [], k, vs, acc, pu, hvs, _, hpu => by
    obtain ⟨v, vs', rfl⟩ := List.exists_cons_of_ne_nil hvs
    cases pu with
    | none =>
      show parseExtsAux (some (k, v :: vs')) acc [] = _
      rw [parseExtsAux_nil, flushCur_vals]
      rw [List.append_nil]
      rfl
    | some pvs =>
      obtain ⟨p0, ps, rfl⟩ := List.exists_cons_of_ne_nil (puOK_ne_nil hpu)
      show parseExtsAux (some (k, v :: vs')) acc ("x" :: p0 :: ps) = _
      rw [parseExtsAux_cons_single _ _ "x" (p0 :: ps) (by decide),
        flushCur_vals, except_bind_ok]
      rw [if_pos (by decide)]
      rw [List.append_nil]
      rfl
  | (k2, vs2) :: es2, k, vs, acc, pu, hvs, hes, hpu => by
    obtain ⟨v, vs', rfl⟩ := List.exists_cons_of_ne_nil hvs
    obtain ⟨hk2x, hvs2ne, hvals2⟩ :=
      extOK_parts (hes (k2, vs2) (List.mem_cons_self _ _))
    rw [extTokens_cons]
    show parseExtsAux (some (k, v :: vs')) acc
      ((⟨[k2]⟩ : String) :: ((vs2 ++ extTokens es2) ++ puTokens pu)) = _
    rw [List.append_assoc vs2 (extTokens es2) (puTokens pu)]
    rw [parseExtsAux_cons_single _ _ ⟨[k2]⟩ _ rfl, flushCur_vals,
      except_bind_ok]
    rw [if_neg (by exact hk2x)]
    show parseExtsAux (some (k2, [])) (acc ++ [(k, v :: vs')])
      (vs2 ++ (extTokens es2 ++ puTokens pu)) = _
    rw [parseExtsAux_vals vs2 k2 [] _ _ hvals2]
    rw [List.nil_append]
    rw [parseExtsAux_main es2 k2 vs2 _ pu hvs2ne
      (fun e he => hes e (List.mem_cons_of_mem _ he)) hpu]
    rw [← List.append_cons]

theorem parseExtsAux_start : ∀ (es : List (Char × List String))
    (acc : List (Char × List String)) (pu : Option (List String)),
    (∀ e ∈ es, extOK e = true) → puOK pu = true →
    parseExtsAux none acc (extTokens es ++ puTokens pu) = .ok (acc ++ es, pu)
  | [], acc, pu, _, hpu => by
    cases pu with
    | none =>
      show parseExtsAux none acc [] = _
      rw [parseExtsAux_nil, flushCur_none]
      rw [List.append_nil]
      rfl
    | some pvs =>
      obtain ⟨p0, ps, rfl⟩ := List.exists_cons_of_ne_nil (puOK_ne_nil hpu)
      show parseExtsAux none acc ("x" :: p0 :: ps) = _
      rw [parseExtsAux_cons_single _ _ "x" (p0 :: ps) (by decide),
        flushCur_none, except_bind_ok]
      rw [if_pos (by decide)]
      rw [List.append_nil]
      rfl
  | (k2, vs2) :: es2, acc, pu, hes, hpu => by
    obtain ⟨hk2x, hvs2ne, hvals2⟩ :=
      extOK_parts (hes (k2, vs2) (List.mem_cons_self _ _))
    rw [extTokens_cons]
    show parseExtsAux none acc
      ((⟨[k2]⟩ : String) :: ((vs2 ++ extTokens es2) ++ puTokens pu)) = _
    rw [List.append_assoc vs2 (extTokens es2) (puTokens pu)]
    rw [parseExtsAux_cons_single _ _ ⟨[k2]⟩ _ rfl, flushCur_none,
      except_bind_ok]
    rw [if_neg (by exact hk2x)]
    show parseExtsAux (some (k2, [])) acc
      (vs2 ++ (extTokens es2 ++ puTokens pu)) = _
    rw [parseExtsAux_vals vs2 k2 [] _ _ hvals2]
    rw [List.nil_append]
    rw [parseExtsAux_main es2 k2 vs2 _ pu hvs2ne
      (fun e he => hes e (List.mem_cons_of_mem _ he)) hpu]
    rw [← List.append_cons]

theorem parseTokens_cons_eq (t : String) (rest : List String) :
    parseTokens (t :: rest) =
    (if lowerStr t = "x" then
      (match rest with
       | [] => Except.error (ParseError.missingSingletonValue 'x')
       | v :: vs =>
         Except.ok (LanguageTag.mk "und" [] none none [] [] (some (v :: vs))))
    else if isLangTok t = true then
      (parseVarsAux [] (peekOpt isRegionTok
          (peekOpt isScriptTok (parseExtlangAux 3 rest).2).2).2).bind (fun pv =>
        (parseExtsAux none [] pv.2).bind (fun pe =>
          Except.ok (LanguageTag.mk t (parseExtlangAux 3 rest).1
            (peekOpt isScriptTok (parseExtlangAux 3 rest).2).1
            (peekOpt isRegionTok
              (peekOpt isScriptTok (parseExtlangAux 3 rest).2).2).1
            pv.1 pe.1 pe.2)))
    else Except.error (ParseError.unexpectedSubtag t Slot.languageSlot)) := rfl

theorem parseTokens_cons_result (t : String) (rest : List String)
    (es : List String) (r1 : List String) (sc : Option String)
    (r2 : List String) (rg : Option String) (r3 : List String)
    (hx : ¬(lowerStr t = "x")) (hlang : isLangTok t = true)
    (he : parseExtlangAux 3 rest = (es, r1))
    (hs : peekOpt isScriptTok r1 = (sc, r2))
    (hr : peekOpt isRegionTok r2 = (rg, r3)) :
    parseTokens (t :: rest) =
      (parseVarsAux [] r3).bind (fun pv =>
        (parseExtsAux none [] pv.2).bind (fun pe =>
          .ok { language := t, extlang := es, script := sc, region := rg,
                variants := pv.1, extensions := pe.1,
                privateuse := pe.2 })) := by
  rw [parseTokens_cons_eq, if_neg hx, if_pos hlang]
  simp only [he, hs, hr]

theorem parseTokens_tokensOf (c : LanguageTag)
    (h : ValidShape c = true) (hh : headVariantOK c = true) :
    parseTokens (tokensOf c) = .ok c := by
  have h' := h
  simp only [ValidShape, Bool.and_eq_true, decide_eq_true_eq] at h'
  obtain ⟨⟨⟨⟨⟨⟨⟨⟨hlang, hextlen⟩, hextall⟩, hscript⟩, hregion⟩, hvarall⟩,
    hvarnodup⟩, hextall2⟩, hpu⟩ := h'
  have hextall' := List.all_eq_true.mp hextall
  have hvarall' := List.all_eq_true.mp hvarall
  have hextall2' := List.all_eq_true.mp hextall2
  have hlanglen : 2 ≤ c.language.data.length := by
    unfold isLangTok at hlang
    simp only [Bool.and_eq_true, decide_eq_true_eq] at hlang
    exact hlang.1.1
  have hnx : ¬(lowerStr c.language = "x") := by
    intro heq
    have hlen1 : (lowerStr c.language).data.length =
        ("x" : String).data.length := by rw [heq]
    rw [length_lowerStr] at hlen1
    have hxlen : ("x" : String).data.length = 1 := by decide
    omega
  have hSHead : ∀ t, c.script.toList.head? = some t →
      isScriptTok t = true := by
    cases hsc : c.script with
    | none =>
      intro t ht
      simp at ht
    | some s =>
      intro t ht
      have hts : s = t := by simpa using ht
      rw [hsc] at hscript
      have hss : isScriptTok s = true := hscript
      exact hts ▸ hss
  have hRHead : ∀ t, c.region.toList.head? = some t →
      isRegionTok t = true := by
    cases hrg : c.region with
    | none =>
      intro t ht
      simp at ht
    | some r =>
      intro t ht
      have hts : r = t := by simpa using ht
      rw [hrg] at hregion
      have hrr : isRegionTok r = true := hregion
      exact hts ▸ hrr
  have hVHead : ∀ t, c.variants.head? = some t →
      isVariantTok t = true := by
    cases hv : c.variants with
    | nil =>
      intro t ht
      simp at ht
    | cons v vs =>
      intro t ht
      have hts : v = t := by simpa using ht
      refine hts ▸ hvarall' v ?_
      rw [hv]
      exact List.mem_cons_self v vs
  have hEHead := extTokens_head c.extensions
  have hPHead := puTokens_head c.privateuse
  have hstopE : ∀ t, (c.script.toList ++ (c.region.toList ++ (c.variants ++
      (extTokens c.extensions ++ puTokens c.privateuse)))).head? = some t →
      isExtlangTok t = false :=
    stop_append _ _ (fun t ht => not_extlang_of_script t (hSHead t ht))
      (fun _ => stop_append _ _
        (fun t ht => not_extlang_of_region t (hRHead t ht))
        (fun _ => stop_append _ _
          (fun t ht => not_extlang_of_variant t (hVHead t ht))
          (fun _ => stop_append _ _
            (fun t ht => not_extlang_of_len1 t (hEHead t ht))
            (fun _ t ht => not_extlang_of_len1 t (hPHead t ht)))))
  have hstopV : ∀ t, (extTokens c.extensions ++
      puTokens c.privateuse).head? = some t → isVariantTok t = false :=
    stop_append _ _ (fun t ht => not_variant_of_len1 t (hEHead t ht))
      (fun _ t ht => not_variant_of_len1 t (hPHead t ht))
  have hstopR : ∀ t, (c.variants ++ (extTokens c.extensions ++
      puTokens c.privateuse)).head? = some t → isRegionTok t = false :=
    stop_append _ _ (fun t ht => not_region_of_variant t (hVHead t ht))
      (fun _ => stop_append _ _
        (fun t ht => not_region_of_len1 t (hEHead t ht))
        (fun _ t ht => not_region_of_len1 t (hPHead t ht)))
  have he : parseExtlangAux 3 (c.extlang ++ (c.script.toList ++
      (c.region.toList ++ (c.variants ++ (extTokens c.extensions ++
      puTokens c.privateuse))))) = (c.extlang, c.script.toList ++
      (c.region.toList ++ (c.variants ++ (extTokens c.extensions ++
      puTokens c.privateuse)))) :=
    parseExtlangAux_exact c.extlang 3 _ hextlen hextall' hstopE
  have hs : peekOpt isScriptTok (c.script.toList ++ (c.region.toList ++
      (c.variants ++ (extTokens c.extensions ++ puTokens c.privateuse)))) =
      (c.script, c.region.toList ++ (c.variants ++ (extTokens c.extensions ++
      puTokens c.privateuse))) := by
    cases hsc : c.script with
    | some s =>
      rw [hsc] at hscript
      have hss : isScriptTok s = true := hscript
      show peekOpt isScriptTok (s :: (c.region.toList ++ (c.variants ++
        (extTokens c.extensions ++ puTokens c.privateuse)))) = _
      rw [peekOpt_hit _ _ _ hss]
    | none =>
      show peekOpt isScriptTok (c.region.toList ++ (c.variants ++
        (extTokens c.extensions ++ puTokens c.privateuse))) = _
      refine peekOpt_stop _ _ ?_
      refine stop_append _ _
        (fun t ht => not_script_of_region t (hRHead t ht)) ?_
      intro hRnil
      have hrgnone : c.region = none := by
        cases hrg : c.region with
        | none => rfl
        | some r =>
          rw [hrg] at hRnil
          simp at hRnil
      refine stop_append _ _ ?_
        (fun _ => stop_append _ _
          (fun t ht => not_script_of_len1 t (hEHead t ht))
          (fun _ t ht => not_script_of_len1 t (hPHead t ht)))
      intro t ht
      cases hv : c.variants with
      | nil =>
        rw [hv] at ht
        simp at ht
      | cons v vs =>
        rw [hv] at ht
        have hts : v = t := by simpa using ht
        have hh2 := hh
        simp only [headVariantOK, hsc, hrgnone, hv, Option.isNone_none,
          Bool.and_self, Bool.not_true, Bool.false_or] at hh2
        rw [Bool.not_eq_true'] at hh2
        exact hts ▸ hh2
  have hr : peekOpt isRegionTok (c.region.toList ++ (c.variants ++
      (extTokens c.extensions ++ puTokens c.privateuse))) = (c.region,
      c.variants ++ (extTokens c.extensions ++ puTokens c.privateuse)) := by
    cases hrg : c.region with
    | some r =>
      rw [hrg] at hregion
      have hrr : isRegionTok r = true := hregion
      show peekOpt isRegionTok (r :: (c.variants ++ (extTokens c.extensions ++
        puTokens c.privateuse))) = _
      rw [peekOpt_hit _ _ _ hrr]
    | none =>
      show peekOpt isRegionTok (c.variants ++ (extTokens c.extensions ++
        puTokens c.privateuse)) = _
      exact peekOpt_stop _ _ hstopR
  have hv : parseVarsAux [] (c.variants ++ (extTokens c.extensions ++
      puTokens c.privateuse)) = .ok (c.variants, extTokens c.extensions ++
      puTokens c.privateuse) := by
    have hres := parseVarsAux_exact c.variants [] _ hvarall'
      (by simpa using hvarnodup) hstopV
    simpa using hres
  have hext : parseExtsAux none [] (extTokens c.extensions ++
      puTokens c.privateuse) = .ok (c.extensions, c.privateuse) := by
    have hres := parseExtsAux_start c.extensions [] c.privateuse
      hextall2' hpu
    simpa using hres
  have htoks : tokensOf c = c.language :: (c.extlang ++ (c.script.toList ++
      (c.region.toList ++ (c.variants ++ (extTokens c.extensions ++
      puTokens c.privateuse))))) := by
    simp [tokensOf, List.append_assoc]
  rw [htoks, parseTokens_cons_result c.language _ c.extlang _ c.script _
    c.region _ hnx hlang he hs hr]
  simp only [hv, except_bind_ok, hext]

/-! ## Lemmas: serialized tokens pass the scanner -/

theorem alnum_of_alpha (c : Char) (h : isAsciiAlpha c = true) :
    isAsciiAlphanum c = true := by
  unfold isAsciiAlphanum
  rw [h, Bool.true_or]

theorem alnum_of_digit (c : Char) (h : isAsciiDigit c = true) :
    isAsciiAlphanum c = true := by
  unfold isAsciiAlphanum
  rw [h, Bool.or_true]

theorem all_alnum_of_all_alpha (l : List Char)
    (h : l.all isAsciiAlpha = true) : l.all isAsciiAlphanum = true :=
  List.all_eq_true.mpr
    (fun c hc => alnum_of_alpha c (List.all_eq_true.mp h c hc))

theorem all_alnum_of_all_digit (l : List Char)
    (h : l.all isAsciiDigit = true) : l.all isAsciiAlphanum = true :=
  List.all_eq_true.mpr
    (fun c hc => alnum_of_digit c (List.all_eq_true.mp h c hc))

theorem tokOK_of_parts (l : List Char) (h1 : 1 ≤ l.length)
    (h8 : l.length ≤ 8) (ha : l.all isAsciiAlphanum = true) :
    tokOK l = true := by
  unfold tokOK
  have hne : l.isEmpty = false := by
    cases l with
    | nil => exact absurd h1 (by simp)
    | cons a l2 => rfl
  rw [hne, ha]
  simp [h8]

theorem tokOK_of_lang (s : String) (h : isLangTok s = true) :
    tokOK s.data = true := by
  unfold isLangTok at h
  simp only [Bool.and_eq_true, decide_eq_true_eq] at h
  exact tokOK_of_parts s.data (by omega) h.1.2
    (all_alnum_of_all_alpha s.data h.2)

theorem tokOK_of_extlang (s : String) (h : isExtlangTok s = true) :
    tokOK s.data = true := by
  unfold isExtlangTok at h
  simp only [Bool.and_eq_true, beq_iff_eq] at h
  exact tokOK_of_parts s.data (by omega) (by omega)
    (all_alnum_of_all_alpha s.data h.2)

theorem tokOK_of_script (s : String) (h : isScriptTok s = true) :
    tokOK s.data = true := by
  unfold isScriptTok at h
  simp only [Bool.and_eq_true, beq_iff_eq] at h
  exact tokOK_of_parts s.data (by omega) (by omega)
    (all_alnum_of_all_alpha s.data h.2)

theorem tokOK_of_region (s : String) (h : isRegionTok s = true) :
    tokOK s.data = true := by
  unfold isRegionTok at h
  simp only [Bool.or_eq_true, Bool.and_eq_true, beq_iff_eq] at h
  rcases h with h | h
  · exact tokOK_of_parts s.data (by omega) (by omega)
      (all_alnum_of_all_alpha s.data h.2)
  · exact tokOK_of_parts s.data (by omega) (by omega)
      (all_alnum_of_all_digit s.data h.2)

theorem tokOK_of_variant (s : String) (h : isVariantTok s = true) :
    tokOK s.data = true := by
  unfold isVariantTok at h
  simp only [Bool.and_eq_true, decide_eq_true_eq] at h
  exact tokOK_of_parts s.data (by omega) h.1.2 h.2

theorem tokOK_of_extval (s : String) (h : isExtValTok s = true) :
    tokOK s.data = true := by
  unfold isExtValTok at h
  simp only [Bool.and_eq_true, decide_eq_true_eq] at h
  exact tokOK_of_parts s.data (by omega) h.1.2 h.2

theorem mem_extTokens {t : String} {es : List (Char × List String)}
    (h : t ∈ extTokens es) :
    ∃ e ∈ es, t = (⟨[e.1]⟩ : String) ∨ t ∈ e.2 := by
  unfold extTokens at h
  rw [List.mem_flatten] at h
  obtain ⟨l, hl, htl⟩ := h
  rw [List.mem_map] at hl
  obtain ⟨e, he, rfl⟩ := hl
  rw [List.mem_cons] at htl
  exact ⟨e, he, htl⟩

theorem tokensOf_tokOK (c : LanguageTag) (h : ValidShape c = true) :
    ∀ t ∈ tokensOf c, tokOK t.data = true := by
  have h' := h
  simp only [ValidShape, Bool.and_eq_true, decide_eq_true_eq] at h'
  obtain ⟨⟨⟨⟨⟨⟨⟨⟨hlang, _⟩, hextall⟩, hscript⟩, hregion⟩, hvarall⟩, _⟩,
    hextall2⟩, hpu⟩ := h'
  intro t ht
  unfold tokensOf at ht
  simp only [List.cons_append, List.mem_cons, List.mem_append] at ht
  rcases ht with rfl | ⟨⟨⟨⟨he | hs⟩ | hr⟩ | hv⟩ | hext⟩ | hpu2
  · exact tokOK_of_lang c.language hlang
  · exact tokOK_of_extlang t (List.all_eq_true.mp hextall t he)
  · cases hsc : c.script with
    | none =>
      rw [hsc] at hs
      simp at hs
    | some s =>
      rw [hsc] at hs hscript
      have hts : t = s := by simpa using hs
      exact hts ▸ tokOK_of_script s hscript
  · cases hrg : c.region with
    | none =>
      rw [hrg] at hr
      simp at hr
    | some r =>
      rw [hrg] at hr hregion
      have htr : t = r := by simpa using hr
      exact htr ▸ tokOK_of_region r hregion
  · exact tokOK_of_variant t (List.all_eq_true.mp hvarall t hv)
  · obtain ⟨e, he, heq | hval⟩ := mem_extTokens hext
    · have hok := List.all_eq_true.mp hextall2 e he
      unfold extOK at hok
      simp only [Bool.and_eq_true] at hok
      rw [heq]
      exact tokOK_of_parts [e.1] (by simp) (by simp) (by
        rw [List.all_cons, hok.1.1.1]
        rfl)
    · have hok := List.all_eq_true.mp hextall2 e he
      have hparts := extOK_parts hok
      exact tokOK_of_extval t (hparts.2.2 t hval)
  · cases hpc : c.privateuse with
    | none =>
      rw [hpc] at hpu2
      simp [puTokens] at hpu2
    | some vs =>
      rw [hpc] at hpu2 hpu
      unfold puTokens at hpu2
      unfold puOK at hpu
      simp only [Bool.and_eq_true] at hpu
      rw [List.mem_cons] at hpu2
      rcases hpu2 with rfl | hmem
      · decide
      · exact List.all_eq_true.mp hpu.2 t hmem

theorem scan_serialize (c : LanguageTag) (h : ValidShape c = true) :
    scan (serialize c) = .ok (tokensOf c) := by
  show scan ⟨intercalateDash ((tokensOf c).map String.data)⟩ =
    .ok (tokensOf c)
  exact scan_of_tokens (tokensOf c) (by simp [tokensOf]) (tokensOf_tokOK c h)

/-! ## Lemmas: canonical serializations never collide with the
grandfathered table -/

theorem intercalateDash_cons_ex (p : List Char) (ps : List (List Char)) :
    ∃ tl, intercalateDash (p :: ps) = p ++ tl := by
  cases ps with
  | nil =>
    refine ⟨[], ?_⟩
    show p = p ++ []
    rw [List.append_nil]
  | cons q ps2 => exact ⟨'-' :: intercalateDash (q :: ps2), rfl⟩

theorem grandfatheredLookup_none_of_alpha (s : String) (a b : Char)
    (tl : List Char) (hd : s.data = a :: b :: tl)
    (hb : isAsciiAlpha b = true) : grandfatheredLookup s = none := by
  have h1 : ¬(s = "i-klingon") := by
    intro he
    rw [he] at hd
    have hdd : ('i' : Char) :: '-' :: ['k', 'l', 'i', 'n', 'g', 'o', 'n'] =
        a :: b :: tl := hd
    injection hdd with _ hdd2
    injection hdd2 with hb2 _
    rw [← hb2] at hb
    exact absurd hb (by decide)
  have h2 : ¬(s = "i-navajo") := by
    intro he
    rw [he] at hd
    have hdd : ('i' : Char) :: '-' :: ['n', 'a', 'v', 'a', 'j', 'o'] =
        a :: b :: tl := hd
    injection hdd with _ hdd2
    injection hdd2 with hb2 _
    rw [← hb2] at hb
    exact absurd hb (by decide)
  unfold grandfatheredLookup
  rw [if_neg h1, if_neg h2]

theorem grandfathered_serialize_none (c : LanguageTag)
    (h : ValidShape c = true) :
    grandfatheredLookup (lowerStr (serialize c)) = none := by
  have h' := h
  simp only [ValidShape, Bool.and_eq_true, decide_eq_true_eq] at h'
  obtain ⟨⟨⟨⟨⟨⟨⟨⟨hlang, _⟩, _⟩, _⟩, _⟩, _⟩, _⟩, _⟩, _⟩ := h'
  unfold isLangTok at hlang
  simp only [Bool.and_eq_true, decide_eq_true_eq] at hlang
  obtain ⟨a, l1, ha⟩ : ∃ a l1, c.language.data = a :: l1 := by
    cases hd : c.language.data with
    | nil =>
      rw [hd] at hlang
      exact absurd hlang.1.1 (by simp)
    | cons a l1 => exact ⟨a, l1, rfl⟩
  obtain ⟨b, l2, hb⟩ : ∃ b l2, l1 = b :: l2 := by
    cases hd : l1 with
    | nil =>
      rw [ha, hd] at hlang
      exact absurd hlang.1.1 (by simp)
    | cons b l2 => exact ⟨b, l2, rfl⟩
  have hballpha : isAsciiAlpha b = true := by
    have := hlang.2
    rw [ha, hb] at this
    simp only [List.all_cons, Bool.and_eq_true] at this
    exact this.2.1
  obtain ⟨tl, htl⟩ := intercalateDash_cons_ex c.language.data
    ((c.extlang ++ c.script.toList ++ c.region.toList ++ c.variants ++
      extTokens c.extensions ++ puTokens c.privateuse).map String.data)
  have hserdata : (serialize c).data =
      c.language.data ++ tl := by
    show intercalateDash ((tokensOf c).map String.data) =
      c.language.data ++ tl
    rw [show (tokensOf c).map String.data = c.language.data ::
      ((c.extlang ++ c.script.toList ++ c.region.toList ++ c.variants ++
        extTokens c.extensions ++ puTokens c.privateuse).map String.data)
      from rfl]
    exact htl
  refine grandfatheredLookup_none_of_alpha _ (lowerChar a) (lowerChar b)
    ((l2 ++ tl).map lowerChar) ?_ ?_
  · show ((serialize c).data).map lowerChar = _
    rw [hserdata, ha, hb]
    rfl
  · rw [isAsciiAlpha_lowerChar]
    exact hballpha

theorem except_mapError_ok {ε ε2 α : Type} (a : α) (f : ε → ε2) :
    (Except.ok a : Except ε α).mapError f = .ok a := rfl

theorem parseTag_serialize (c : LanguageTag) (h : ValidShape c = true)
    (hh : headVariantOK c = true) : parseTag (serialize c) = .ok c := by
  have hg := grandfathered_serialize_none c h
  have hscan := scan_serialize c h
  have hparse := parseTokens_tokensOf c h hh
  simp only [parseTag, hg, hscan, hparse, except_mapError_ok]

/-! ## Lemmas: canonicalization preserves validity -/

theorem isExtValTok_lowerStr (s : String) :
    isExtValTok (lowerStr s) = isExtValTok s := by
  unfold isExtValTok
  rw [length_lowerStr, all_alnum_lowerStr]

theorem isEmpty_map {α β : Type} (f : α → β) (l : List α) :
    (l.map f).isEmpty = l.isEmpty := by
  cases l <;> rfl

theorem tokOK_lowerStr (s : String) :
    tokOK (lowerStr s).data = tokOK s.data := by
  unfold tokOK
  rw [lowerStr_data, isEmpty_map, List.length_map, List.all_map,
    @all_congr_fun _ (isAsciiAlphanum ∘ lowerChar) isAsciiAlphanum
      (fun a => isAsciiAlphanum_lowerChar a) s.data]

theorem isLangTok_canonLang (l : String) (h : isLangTok l = true) :
    isLangTok (canonLang l) = true := by
  unfold canonLang aliasLang
  by_cases h1 : lowerStr l = "iw"
  · rw [if_pos h1]
    decide
  · rw [if_neg h1]
    by_cases h2 : lowerStr l = "in"
    · rw [if_pos h2]
      decide
    · rw [if_neg h2]
      by_cases h3 : lowerStr l = "ji"
      · rw [if_pos h3]
        decide
      · rw [if_neg h3, isLangTok_lowerStr]
        exact h

theorem isRegionTok_canonRegion (r : String) (h : isRegionTok r = true) :
    isRegionTok (canonRegion r) = true := by
  unfold canonRegion aliasRegion
  by_cases h1 : upperStr r = "BU"
  · rw [if_pos h1]
    decide
  · rw [if_neg h1]
    by_cases h2 : upperStr r = "DD"
    · rw [if_pos h2]
      decide
    · rw [if_neg h2, isRegionTok_upperStr]
      exact h

theorem isVariantTok_canonVariant (v : String) (h : isVariantTok v = true) :
    isVariantTok (canonVariant v) = true := by
  unfold canonVariant aliasVariant
  by_cases h1 : lowerStr v = "heploc"
  · rw [if_pos h1]
    decide
  · rw [if_neg h1, isVariantTok_lowerStr]
    exact h

theorem lowerStr_canonVariant_fix (v : String) :
    lowerStr (canonVariant v) = canonVariant v := by
  unfold canonVariant aliasVariant
  by_cases h1 : lowerStr v = "heploc"
  · rw [if_pos h1]
    decide
  · rw [if_neg h1]
    exact lowerStr_idem v

theorem not_script_canonVariant (v : String) (h : isScriptTok v = false) :
    isScriptTok (canonVariant v) = false := by
  unfold canonVariant aliasVariant
  by_cases h1 : lowerStr v = "heploc"
  · rw [if_pos h1]
    decide
  · rw [if_neg h1, isScriptTok_lowerStr]
    exact h

theorem mem_canonVariantsList {x : String} {vs : List String}
    (h : x ∈ canonVariantsList vs) : x ∈ vs.map canonVariant := by
  unfold canonVariantsList at h
  exact (List.perm_insertionSort strLE (vs.map canonVariant)).mem_iff.mp
    (List.mem_dedup.mp h)

theorem extOK_canonExt (e : Char × List String) (h : extOK e = true) :
    extOK (canonExt e) = true := by
  unfold extOK at h
  simp only [Bool.and_eq_true] at h
  obtain ⟨⟨⟨halnum, hx⟩, hne⟩, hvals⟩ := h
  simp only [extOK, canonExt, Bool.and_eq_true]
  refine ⟨⟨⟨?_, ?_⟩, ?_⟩, ?_⟩
  · rw [isAsciiAlphanum_lowerChar]
    exact halnum
  · rw [lowerChar_idem]
    exact hx
  · rw [isEmpty_map]
    exact hne
  · rw [List.all_map,
      @all_congr_fun _ (isExtValTok ∘ lowerStr) isExtValTok
        (fun a => isExtValTok_lowerStr a) e.2]
    exact hvals

theorem puOK_canon (pu : Option (List String)) (h : puOK pu = true) :
    puOK (pu.map (fun vs => vs.map lowerStr)) = true := by
  cases pu with
  | none => rfl
  | some vs =>
    unfold puOK at h ⊢
    simp only [Option.map_some'] at *
    simp only [Bool.and_eq_true] at h ⊢
    refine ⟨?_, ?_⟩
    · rw [isEmpty_map]
      exact h.1
    · rw [List.all_map]
      exact Eq.trans (all_congr_fun (fun a => tokOK_lowerStr a) vs) h.2

theorem validShape_canonicalize (t : LanguageTag)
    (h : ValidShape t = true) : ValidShape (canonicalize t) = true := by
  have h' := h
  simp only [ValidShape, Bool.and_eq_true, decide_eq_true_eq] at h'
  obtain ⟨⟨⟨⟨⟨⟨⟨⟨hlang, hextlen⟩, hextall⟩, hscript⟩, hregion⟩, hvarall⟩,
    hvarnodup⟩, hextall2⟩, hpu⟩ := h'
  simp only [ValidShape, canonicalize, Bool.and_eq_true, decide_eq_true_eq]
  refine ⟨⟨⟨⟨⟨⟨⟨⟨?_, ?_⟩, ?_⟩, ?_⟩, ?_⟩, ?_⟩, ?_⟩, ?_⟩, ?_⟩
  · exact isLangTok_canonLang t.language hlang
  · rw [List.length_map]
    exact hextlen
  · refine List.all_eq_true.mpr ?_
    intro x hx
    obtain ⟨e, he, rfl⟩ := List.mem_map.mp hx
    rw [isExtlangTok_lowerStr]
    exact List.all_eq_true.mp hextall e he
  · cases hsc : t.script with
    | none => rfl
    | some s =>
      rw [hsc] at hscript
      have hss : isScriptTok s = true := hscript
      show isScriptTok (titleStr s) = true
      rw [isScriptTok_titleStr]
      exact hss
  · cases hrg : t.region with
    | none => rfl
    | some r =>
      rw [hrg] at hregion
      have hrr : isRegionTok r = true := hregion
      show isRegionTok (canonRegion r) = true
      exact isRegionTok_canonRegion r hrr
  · refine List.all_eq_true.mpr ?_
    intro x hx
    obtain ⟨v, hv, rfl⟩ := List.mem_map.mp (mem_canonVariantsList hx)
    exact isVariantTok_canonVariant v (List.all_eq_true.mp hvarall v hv)
  · rw [map_id_of_fix (canonVariantsList t.variants) (fun x hx => by
      obtain ⟨v, _, rfl⟩ := List.mem_map.mp (mem_canonVariantsList hx)
      exact lowerStr_canonVariant_fix v)]
    exact List.nodup_dedup _
  · refine List.all_eq_true.mpr ?_
    intro x hx
    have hx2 : x ∈ t.extensions.map canonExt :=
      (List.perm_insertionSort extLE (t.extensions.map canonExt)).mem_iff.mp
        (by
          unfold canonExtsList at hx
          exact hx)
    obtain ⟨e, he, rfl⟩ := List.mem_map.mp hx2
    exact extOK_canonExt e (List.all_eq_true.mp hextall2 e he)
  · exact puOK_canon t.privateuse hpu

theorem headVariantOK_canonicalize (t : LanguageTag)
    (hns : noScriptShapedVariant t = true) :
    headVariantOK (canonicalize t) = true := by
  cases hsc : t.script with
  | some s => simp [headVariantOK, canonicalize, hsc]
  | none =>
    cases hrg : t.region with
    | some r => simp [headVariantOK, canonicalize, hsc, hrg]
    | none =>
      simp only [noScriptShapedVariant, hsc, hrg, Option.isNone_none,
        Bool.and_self, Bool.not_true, Bool.false_or] at hns
      simp only [headVariantOK, canonicalize, hsc, hrg, Option.map_none',
        Option.isNone_none, Bool.and_self, Bool.not_true, Bool.false_or]
      cases hcv : canonVariantsList t.variants with
      | nil => rfl
      | cons x xs =>
        have hx : x ∈ canonVariantsList t.variants := by
          rw [hcv]
          exact List.mem_cons_self x xs
        obtain ⟨v, hv, rfl⟩ := List.mem_map.mp (mem_canonVariantsList hx)
        have hvns : isScriptTok v = false := by
          have := List.all_eq_true.mp hns v hv
          rw [Bool.not_eq_true'] at this
          exact this
        show (!isScriptTok (canonVariant v)) = true
        rw [not_script_canonVariant v hvns]
        rfl

/-! ## Lemmas: soundness — parser outputs satisfy the shape invariants -/

theorem except_map_ok2 {ε α β : Type} (a : α) (f : α → β) :
    Except.map f (Except.ok a : Except ε α) = .ok (f a) := rfl

theorem except_map_error2 {ε α β : Type} (e : ε) (f : α → β) :
    Except.map f (Except.error e : Except ε α) =
      (Except.error e : Except ε β) := rfl

theorem except_bind_error {ε α β : Type} (e : ε) (f : α → Except ε β) :
    (Except.error e : Except ε α).bind f = .error e := rfl

theorem checkToks_sound : ∀ (ps : List (List Char)) (i : Nat)
    (ts : List String), checkToks i ps = .ok ts →
    ∀ t ∈ ts, tokOK t.data = true
  | [], _, ts, h => by
    injection h with h2
    rw [← h2]
    intro t ht
    exact absurd ht (by simp)
  | p :: ps, i, ts, h => by
    unfold checkToks at h
    by_cases hp : tokOK p = true
    · rw [if_pos hp] at h
      cases hrec : checkToks (i + 1) ps with
      | error e =>
        rw [hrec, except_map_error2] at h
        exact absurd h (by simp)
      | ok ts2 =>
        rw [hrec, except_map_ok2] at h
        injection h with h2
        rw [← h2]
        intro t ht
        rcases List.mem_cons.mp ht with rfl | hmem
        · exact hp
        · exact checkToks_sound ps (i + 1) ts2 hrec t hmem
    · rw [if_neg hp] at h
      exact absurd h (by simp)

theorem scan_sound (raw : String) (ts : List String)
    (h : scan raw = .ok ts) : ∀ t ∈ ts, tokOK t.data = true := by
  unfold scan at h
  by_cases he : raw.data.isEmpty = true
  · rw [if_pos he] at h
    exact absurd h (by simp)
  · rw [if_neg he] at h
    exact checkToks_sound _ 0 ts h

theorem parseExtlangAux_spec : ∀ (n : Nat) (ts es r : List String),
    parseExtlangAux n ts = (es, r) →
    (∀ e ∈ es, isExtlangTok e = true) ∧ es.length ≤ n ∧ ts = es ++ r
  | 0, ts, es, r, h => by
    injection h with h1 h2
    rw [← h1, ← h2]
    exact ⟨by simp, by simp, rfl⟩
  | n + 1, [], es, r, h => by
    injection h with h1 h2
    rw [← h1, ← h2]
    exact ⟨by simp, by simp, rfl⟩
  | n + 1, t :: ts2, es, r, h => by
    unfold parseExtlangAux at h
    by_cases ht : isExtlangTok t = true
    · rw [if_pos ht] at h
      have hsplit : parseExtlangAux n ts2 =
          ((parseExtlangAux n ts2).1, (parseExtlangAux n ts2).2) := rfl
      rw [hsplit] at h
      injection h with h1 h2
      obtain ⟨hall, hlen, hdec⟩ := parseExtlangAux_spec n ts2
        (parseExtlangAux n ts2).1 (parseExtlangAux n ts2).2 rfl
      rw [← h1, ← h2]
      refine ⟨?_, ?_, ?_⟩
      · intro e he
        rcases List.mem_cons.mp he with rfl | hmem
        · exact ht
        · exact hall e hmem
      · rw [List.length_cons]
        omega
      · rw [List.cons_append, ← hdec]
    · rw [if_neg ht] at h
      injection h with h1 h2
      rw [← h1, ← h2]
      exact ⟨by simp, by simp, rfl⟩

theorem peekOpt_spec (p : String → Bool) : ∀ (ts : List String)
    (o : Option String) (r : List String), peekOpt p ts = (o, r) →
    o.all p = true ∧ (o = none → r = ts) ∧
    (∀ s, o = some s → ts = s :: r)
  | [], o, r, h => by
    injection h with h1 h2
    rw [← h1, ← h2]
    exact ⟨rfl, fun _ => rfl, fun s hs => by simp at hs⟩
  | t :: ts2, o, r, h => by
    have hstep : peekOpt p (t :: ts2) =
        (if p t = true then (some t, ts2) else (none, t :: ts2)) := rfl
    rw [hstep] at h
    by_cases ht : p t = true
    · rw [if_pos ht] at h
      injection h with h1 h2
      rw [← h1, ← h2]
      refine ⟨ht, fun hc => by simp at hc, fun s hs => ?_⟩
      have : t = s := by simpa using hs
      rw [this]
    · rw [if_neg ht] at h
      injection h with h1 h2
      rw [← h1, ← h2]
      exact ⟨rfl, fun _ => rfl, fun s hs => by simp at hs⟩

theorem nodup_lower_snoc {acc : List String} {v : String}
    (hn : (acc.map lowerStr).Nodup)
    (hnm : lowerStr v ∉ acc.map lowerStr) :
    ((acc ++ [v]).map lowerStr).Nodup := by
  rw [List.map_append]
  refine List.nodup_append.mpr ⟨hn, List.nodup_singleton _, ?_⟩
  intro x hx hx2
  have : x = lowerStr v := by simpa using hx2
  rw [this] at hx
  exact hnm hx

theorem parseVarsAux_sound : ∀ (ts acc vs r : List String),
    (∀ v ∈ acc, isVariantTok v = true) →
    ((acc.map lowerStr)).Nodup →
    parseVarsAux acc ts = .ok (vs, r) →
    (∀ v ∈ vs, isVariantTok v = true) ∧ ((vs.map lowerStr)).Nodup ∧
    (∀ x ∈ r, x ∈ ts)
  | [], acc, vs, r, hacc, hnd, h => by
    injection h with h2
    injection h2 with h3 h4
    rw [← h3, ← h4]
    exact ⟨hacc, hnd, by simp⟩
  | t :: ts2, acc, vs, r, hacc, hnd, h => by
    unfold parseVarsAux at h
    by_cases ht : isVariantTok t = true
    · rw [if_pos ht] at h
      by_cases hc : (acc.map lowerStr).contains (lowerStr t) = true
      · rw [if_pos hc] at h
        exact absurd h (by simp)
      · rw [if_neg hc] at h
        have hnm : lowerStr t ∉ acc.map lowerStr := by
          intro hmem
          exact hc (List.elem_iff.mpr hmem)
        have hacc2 : ∀ v ∈ acc ++ [t], isVariantTok v = true := by
          intro v hv
          rcases List.mem_append.mp hv with hv1 | hv2
          · exact hacc v hv1
          · have : v = t := by simpa using hv2
            rw [this]
            exact ht
        obtain ⟨h1, h2, h3⟩ := parseVarsAux_sound ts2 (acc ++ [t]) vs r
          hacc2 (nodup_lower_snoc hnd hnm) h
        exact ⟨h1, h2, fun x hx => List.mem_cons_of_mem t (h3 x hx)⟩
    · rw [if_neg ht] at h
      injection h with h2
      injection h2 with h3 h4
      rw [← h3, ← h4]
      exact ⟨hacc, hnd, by simp⟩

theorem parseExtsAux_cons_val_neg (k : Char) (vs0 : List String)
    (acc : List (Char × List String)) (t : String) (rest : List String)
    (hlen : ¬(t.data.length = 1)) (hv : isExtValTok t = false) :
    parseExtsAux (some (k, vs0)) acc (t :: rest) =
      .error (.unexpectedSubtag t .extensionSlot) := by
  show (if t.data.length = 1 then
      (flushCur (some (k, vs0)) acc).bind (fun acc2 =>
        if lowerChar (t.data.headD 'x') = 'x' then
          Except.map (fun pu => (acc2, pu)) (parsePrivate rest)
        else parseExtsAux (some (t.data.headD 'x', [])) acc2 rest)
    else
      if isExtValTok t = true then
        parseExtsAux (some (k, vs0 ++ [t])) acc rest
      else Except.error (ParseError.unexpectedSubtag t Slot.extensionSlot)) =
    _
  rw [if_neg hlen, if_neg (by rw [hv]; exact Bool.false_ne_true)]

theorem parseExtsAux_cons_none (acc : List (Char × List String))
    (t : String) (rest : List String) (hlen : ¬(t.data.length = 1)) :
    parseExtsAux none acc (t :: rest) =
      .error (.unexpectedSubtag t .extensionSlot) := by
  show (if t.data.length = 1 then
      (flushCur none acc).bind (fun acc2 =>
        if lowerChar (t.data.headD 'x') = 'x' then
          Except.map (fun pu => (acc2, pu)) (parsePrivate rest)
        else parseExtsAux (some (t.data.headD 'x', [])) acc2 rest)
    else Except.error (ParseError.unexpectedSubtag t Slot.extensionSlot)) = _
  rw [if_neg hlen]

theorem extOK_build (k : Char) (vs : List String)
    (ha : isAsciiAlphanum k = true) (hx : lowerChar k ≠ 'x')
    (hne : vs ≠ []) (hvals : ∀ v ∈ vs, isExtValTok v = true) :
    extOK (k, vs) = true := by
  unfold extOK
  simp only [Bool.and_eq_true]
  refine ⟨⟨⟨ha, ?_⟩, ?_⟩, List.all_eq_true.mpr hvals⟩
  · rw [Bool.not_eq_true']
    exact beq_eq_false_iff_ne.mpr hx
  · rw [Bool.not_eq_true']
    cases vs with
    | nil => exact absurd rfl hne
    | cons a l => rfl

theorem puOK_build (vs : List String) (hne : vs ≠ [])
    (hall : ∀ v ∈ vs, tokOK v.data = true) : puOK (some vs) = true := by
  unfold puOK
  simp only [Bool.and_eq_true]
  refine ⟨?_, List.all_eq_true.mpr hall⟩
  rw [Bool.not_eq_true']
  cases vs with
  | nil => exact absurd rfl hne
  | cons a l => rfl

theorem flushCur_ok_sound (cur : Option (Char × List String))
    (acc acc2 : List (Char × List String))
    (hcur : ∀ kv, cur = some kv → isAsciiAlphanum kv.1 = true ∧
      lowerChar kv.1 ≠ 'x' ∧ ∀ v ∈ kv.2, isExtValTok v = true)
    (hacc : ∀ e ∈ acc, extOK e = true)
    (h : flushCur cur acc = .ok acc2) : ∀ e ∈ acc2, extOK e = true := by
  cases cur with
  | none =>
    rw [flushCur_none] at h
    injection h with h2
    rw [← h2]
    exact hacc
  | some kv =>
    obtain ⟨k, vs⟩ := kv
    cases vs with
    | nil =>
      rw [show flushCur (some (k, [])) acc =
        .error (.missingSingletonValue k) from rfl] at h
      exact absurd h (by simp)
    | cons v vs2 =>
      rw [flushCur_vals] at h
      injection h with h2
      rw [← h2]
      intro e he
      rcases List.mem_append.mp he with he1 | he2
      · exact hacc e he1
      · have heq : e = (k, v :: vs2) := by simpa using he2
        rw [heq]
        obtain ⟨ha, hx, hv⟩ := hcur (k, v :: vs2) rfl
        exact extOK_build k (v :: vs2) ha hx (by simp) hv

theorem parsePrivate_sound (ts : List String) (pu : Option (List String))
    (h : parsePrivate ts = .ok pu)
    (hall : ∀ t ∈ ts, tokOK t.data = true) : puOK pu = true := by
  cases ts with
  | nil => exact absurd h (by simp [parsePrivate])
  | cons v vs =>
    have hpu : pu = some (v :: vs) := by
      injection h with h2
      exact h2.symm
    rw [hpu]
    exact puOK_build (v :: vs) (by simp) hall

theorem parseExtsAux_sound : ∀ (ts : List String)
    (cur : Option (Char × List String))
    (acc exts : List (Char × List String)) (pu : Option (List String)),
    (∀ t ∈ ts, tokOK t.data = true) →
    (∀ kv, cur = some kv → isAsciiAlphanum kv.1 = true ∧
      lowerChar kv.1 ≠ 'x' ∧ ∀ v ∈ kv.2, isExtValTok v = true) →
    (∀ e ∈ acc, extOK e = true) →
    parseExtsAux cur acc ts = .ok (exts, pu) →
    (∀ e ∈ exts, extOK e = true) ∧ puOK pu = true
  | [], cur, acc, exts, pu, _, hcur, hacc, h => by
    rw [parseExtsAux_nil] at h
    cases hf : flushCur cur acc with
    | error e =>
      rw [hf, except_map_error2] at h
      exact absurd h (by simp)
    | ok acc2 =>
      rw [hf, except_map_ok2] at h
      injection h with h2
      injection h2 with h3 h4
      rw [← h3, ← h4]
      exact ⟨flushCur_ok_sound cur acc acc2 hcur hacc hf, rfl⟩
  | t :: ts2, cur, acc, exts, pu, hts, hcur, hacc, h => by
    have hts2 : ∀ x ∈ ts2, tokOK x.data = true :=
      fun x hx => hts x (List.mem_cons_of_mem t hx)
    by_cases hlen : t.data.length = 1
    · rw [parseExtsAux_cons_single cur acc t ts2 hlen] at h
      cases hf : flushCur cur acc with
      | error e =>
        rw [hf, except_bind_error] at h
        exact absurd h (by simp)
      | ok acc2 =>
        rw [hf, except_bind_ok] at h
        have hacc2 := flushCur_ok_sound cur acc acc2 hcur hacc hf
        by_cases hx : lowerChar (t.data.headD 'x') = 'x'
        · rw [if_pos hx] at h
          cases hp : parsePrivate ts2 with
          | error e =>
            rw [hp, except_map_error2] at h
            exact absurd h (by simp)
          | ok pu2 =>
            rw [hp, except_map_ok2] at h
            injection h with h2
            injection h2 with h3 h4
            rw [← h3, ← h4]
            exact ⟨hacc2, parsePrivate_sound ts2 pu2 hp hts2⟩
        · rw [if_neg hx] at h
          refine parseExtsAux_sound ts2 (some (t.data.headD 'x', []))
            acc2 exts pu hts2 ?_ hacc2 h
          intro kv hkv
          have hkveq : kv = (t.data.headD 'x', []) := by
            injection hkv with h2
            exact h2.symm
          rw [hkveq]
          refine ⟨?_, hx, by simp⟩
          obtain ⟨c, hc⟩ : ∃ c, t.data = [c] := by
            cases hd : t.data with
            | nil =>
              rw [hd] at hlen
              simp at hlen
            | cons a l =>
              cases l with
              | nil => exact ⟨a, rfl⟩
              | cons b l2 =>
                rw [hd] at hlen
                simp at hlen
          have htok := hts t (List.mem_cons_self t ts2)
          unfold tokOK at htok
          simp only [Bool.and_eq_true] at htok
          have hall := List.all_eq_true.mp htok.2
          rw [hc]
          show isAsciiAlphanum c = true
          refine hall c ?_
          rw [hc]
          exact List.mem_cons_self c []
    · cases cur with
      | none =>
        rw [parseExtsAux_cons_none acc t ts2 hlen] at h
        exact absurd h (by simp)
      | some kv =>
        obtain ⟨k, vs⟩ := kv
        by_cases hval : isExtValTok t = true
        · rw [parseExtsAux_cons_val k vs acc t ts2 hlen hval] at h
          refine parseExtsAux_sound ts2 (some (k, vs ++ [t])) acc exts pu
            hts2 ?_ hacc h
          intro kv2 hkv2
          have hkveq : kv2 = (k, vs ++ [t]) := by
            injection hkv2 with h2
            exact h2.symm
          rw [hkveq]
          obtain ⟨ha, hx2, hv2⟩ := hcur (k, vs) rfl
          refine ⟨ha, hx2, ?_⟩
          intro v hv
          rcases List.mem_append.mp hv with h1 | h2
          · exact hv2 v h1
          · have hvt : v = t := by simpa using h2
            rw [hvt]
            exact hval
        · have hvf : isExtValTok t = false := by
            cases hvv : isExtValTok t with
            | false => rfl
            | true => exact absurd hvv hval
          rw [parseExtsAux_cons_val_neg k vs acc t ts2 hlen hvf] at h
          exact absurd h (by simp)

theorem parseTokens_sound (toks : List String)
    (htoks : ∀ x ∈ toks, tokOK x.data = true)
    (t : LanguageTag) (h : parseTokens toks = .ok t) :
    ValidShape t = true := by
  cases toks with
  | nil => exact absurd h (by simp [parseTokens])
  | cons t0 rest =>
    have hrest : ∀ x ∈ rest, tokOK x.data = true :=
      fun x hx => htoks x (List.mem_cons_of_mem t0 hx)
    rw [parseTokens_cons_eq] at h
    by_cases hx0 : lowerStr t0 = "x"
    · rw [if_pos hx0] at h
      cases rest with
      | nil => exact absurd h (by simp)
      | cons v vs =>
        have ht : t = LanguageTag.mk "und" [] none none [] []
            (some (v :: vs)) := by
          injection h with h2
          exact h2.symm
        rw [ht]
        simp only [ValidShape, Bool.and_eq_true, decide_eq_true_eq]
        refine ⟨⟨⟨⟨⟨⟨⟨⟨?_, ?_⟩, ?_⟩, ?_⟩, ?_⟩, ?_⟩, ?_⟩, ?_⟩, ?_⟩
        · decide
        · decide
        · decide
        · decide
        · decide
        · decide
        · decide
        · decide
        · exact puOK_build (v :: vs) (by simp) hrest
    · rw [if_neg hx0] at h
      by_cases hl0 : isLangTok t0 = true
      · rw [if_pos hl0] at h
        obtain ⟨es, r1, hP1⟩ : ∃ es r1, parseExtlangAux 3 rest = (es, r1) :=
          ⟨_, _, rfl⟩
        obtain ⟨sc, r2, hP2⟩ : ∃ sc r2, peekOpt isScriptTok r1 = (sc, r2) :=
          ⟨_, _, rfl⟩
        obtain ⟨rg, r3, hP3⟩ : ∃ rg r3, peekOpt isRegionTok r2 = (rg, r3) :=
          ⟨_, _, rfl⟩
        simp only [hP1, hP2, hP3] at h
        obtain ⟨hexta, hextlen, hdec1⟩ := parseExtlangAux_spec 3 rest es r1 hP1
        obtain ⟨hsall, hsnone, hssome⟩ := peekOpt_spec isScriptTok r1 sc r2 hP2
        obtain ⟨hrall, hrnone, hrsome⟩ := peekOpt_spec isRegionTok r2 rg r3 hP3
        have hr1sub : ∀ x ∈ r1, x ∈ rest := by
          intro x hx
          rw [hdec1]
          exact List.mem_append_right es hx
        have hr2sub : ∀ x ∈ r2, x ∈ r1 := by
          cases sc with
          | none =>
            have he2 := hsnone rfl
            intro x hx
            rw [← he2]
            exact hx
          | some s =>
            have he2 := hssome s rfl
            intro x hx
            rw [he2]
            exact List.mem_cons_of_mem s hx
        have hr3sub : ∀ x ∈ r3, x ∈ r2 := by
          cases rg with
          | none =>
            have he2 := hrnone rfl
            intro x hx
            rw [← he2]
            exact hx
          | some r =>
            have he2 := hrsome r rfl
            intro x hx
            rw [he2]
            exact List.mem_cons_of_mem r hx
        have hr3toks : ∀ x ∈ r3, tokOK x.data = true :=
          fun x hx => hrest x (hr1sub x (hr2sub x (hr3sub x hx)))
        cases hpv : parseVarsAux [] r3 with
        | error e =>
          rw [hpv, except_bind_error] at h
          exact absurd h (by simp)
        | ok pv =>
          rw [hpv, except_bind_ok] at h
          cases hpe : parseExtsAux none [] pv.2 with
          | error e =>
            rw [hpe, except_bind_error] at h
            exact absurd h (by simp)
          | ok pe =>
            rw [hpe, except_bind_ok] at h
            have ht : t = LanguageTag.mk t0 es sc rg pv.1 pe.1 pe.2 := by
              injection h with h2
              exact h2.symm
            obtain ⟨hvall, hvnodup, hvsub⟩ := parseVarsAux_sound r3 []
              pv.1 pv.2 (by simp) (by simp) (by rw [hpv])
            have hpv2toks : ∀ x ∈ pv.2, tokOK x.data = true :=
              fun x hx => hr3toks x (hvsub x hx)
            obtain ⟨hextok, hpuok⟩ := parseExtsAux_sound pv.2 none []
              pe.1 pe.2 hpv2toks
              (fun kv hkv => absurd hkv (by simp)) (by simp) (by rw [hpe])
            rw [ht]
            simp only [ValidShape, Bool.and_eq_true, decide_eq_true_eq]
            exact ⟨⟨⟨⟨⟨⟨⟨⟨hl0, hextlen⟩, List.all_eq_true.mpr hexta⟩,
              hsall⟩, hrall⟩, List.all_eq_true.mpr hvall⟩, hvnodup⟩,
              List.all_eq_true.mpr hextok⟩, hpuok⟩
      · rw [if_neg hl0] at h
        exact absurd h (by simp)

theorem parseTag_valid (s : String) (t : LanguageTag)
    (h : parseTag s = .ok t) : ValidShape t = true := by
  unfold parseTag at h
  cases hg : grandfatheredLookup (lowerStr s) with
  | some g =>
    rw [hg] at h
    have htg : t = g := by
      injection h with h2
      exact h2.symm
    unfold grandfatheredLookup at hg
    by_cases h1 : lowerStr s = "i-klingon"
    · rw [if_pos h1] at hg
      injection hg with hg2
      rw [htg, ← hg2]
      decide
    · rw [if_neg h1] at hg
      by_cases h2 : lowerStr s = "i-navajo"
      · rw [if_pos h2] at hg
        injection hg with hg2
        rw [htg, ← hg2]
        decide
      · rw [if_neg h2] at hg
        exact absurd hg (by simp)
  | none =>
    rw [hg] at h
    cases hs2 : scan s with
    | error e =>
      rw [hs2] at h
      exact absurd h (by simp)
    | ok toks =>
      rw [hs2] at h
      replace h : Except.mapError LocaleError.parseErr (parseTokens toks) =
        .ok t := h
      cases hp : parseTokens toks with
      | error e =>
        rw [hp] at h
        exact absurd h (by simp [Except.mapError])
      | ok t2 =>
        rw [hp, except_mapError_ok] at h
        have htg : t = t2 := by
          injection h with h2
          exact h2.symm
        rw [htg]
        exact parseTokens_sound toks (scan_sound s toks hs2) t2 hp

/-! ## Claim theorems: round-trip, construction atomicity, overrides -/

/-- C7 counterexample: the round-trip property fails as stated.  The tag
string `ab-zzzzz-ghij` is accepted with `ghij` as a variant (a 4-letter
token in the variants slot, with no script or region present); its
canonical serialization sorts the variants, so re-parsing captures `ghij`
in the script slot, producing a tag that is not field-equal — not even
canonically equal — to the original.  Also, for `EN-us`, re-parsing the
canonical serialization yields differently cased fields, so literal
field equality already fails there. -/
theorem c7_roundtrip_counterexample :
    parseTag "ab-zzzzz-ghij" =
      .ok ⟨"ab", [], none, none, ["zzzzz", "ghij"], [], none⟩ ∧
    parseTag
        (asBcp47 ⟨"ab", [], none, none, ["zzzzz", "ghij"], [], none⟩) =
      .ok ⟨"ab", [], some "ghij", none, ["zzzzz"], [], none⟩ ∧
    (⟨"ab", [], some "ghij", none, ["zzzzz"], [], none⟩ : LanguageTag) ≠
      ⟨"ab", [], none, none, ["zzzzz", "ghij"], [], none⟩ ∧
    canonicalize ⟨"ab", [], some "ghij", none, ["zzzzz"], [], none⟩ ≠
      canonicalize ⟨"ab", [], none, none, ["zzzzz", "ghij"], [], none⟩ ∧
    parseTag "EN-us" = .ok ⟨"EN", [], none, some "us", [], [], none⟩ ∧
    parseTag (asBcp47 ⟨"EN", [], none, some "us", [], [], none⟩) =
      .ok ⟨"en", [], none, some "US", [], [], none⟩ ∧
    (⟨"en", [], none, some "US", [], [], none⟩ : LanguageTag) ≠
      ⟨"EN", [], none, some "us", [], [], none⟩ := by
  refine ⟨?_, ?_, ?_, ?_, ?_, ?_, ?_⟩ <;> decide

/-- C7 (amended): for every string accepted by the parser whose tag,
when it has neither script nor region, contains no variant of exactly
four letters, serializing via `as_bcp47()` and re-parsing succeeds and
produces a semantically equal tag — one with the same canonical form
(the spec's own notion of a semantically equivalent tag). -/
theorem c7_roundtrip_amended (s : String) (t : LanguageTag)
    (hp : parseTag s = .ok t) (hns : noScriptShapedVariant t = true) :
    ∃ t2, parseTag (asBcp47 t) = .ok t2 ∧
      canonicalize t2 = canonicalize t := by
  have hv := parseTag_valid s t hp
  refine ⟨canonicalize t, ?_, canonicalize_idem t⟩
  show parseTag (serialize (canonicalize t)) = .ok (canonicalize t)
  exact parseTag_serialize (canonicalize t) (validShape_canonicalize t hv)
    (headVariantOK_canonicalize t hns)

/-- Witness for C7 (amended), at the accepted string
`en-Latn-US-valencia-x-priv`. -/
theorem c7_roundtrip_amended_witness :
    ∃ t2, parseTag (asBcp47 ⟨"en", [], some "Latn", some "US",
        ["valencia"], [], some ["priv"]⟩) = .ok t2 ∧
      canonicalize t2 = canonicalize ⟨"en", [], some "Latn", some "US",
        ["valencia"], [], some ["priv"]⟩ :=
  c7_roundtrip_amended "en-Latn-US-valencia-x-priv" _ (by decide) (by decide)

theorem validShape_setScript (t : LanguageTag) (s : String)
    (h : ValidShape t = true) (hs : isScriptTok s = true) :
    ValidShape { t with script := some s } = true := by
  simp only [ValidShape, Bool.and_eq_true, decide_eq_true_eq] at h ⊢
  obtain ⟨⟨⟨⟨⟨⟨⟨⟨h1, h2⟩, h3⟩, _⟩, h5⟩, h6⟩, h7⟩, h8⟩, h9⟩ := h
  exact ⟨⟨⟨⟨⟨⟨⟨⟨h1, h2⟩, h3⟩, hs⟩, h5⟩, h6⟩, h7⟩, h8⟩, h9⟩

theorem validShape_setRegion (t : LanguageTag) (r : String)
    (h : ValidShape t = true) (hr : isRegionTok r = true) :
    ValidShape { t with region := some r } = true := by
  simp only [ValidShape, Bool.and_eq_true, decide_eq_true_eq] at h ⊢
  obtain ⟨⟨⟨⟨⟨⟨⟨⟨h1, h2⟩, h3⟩, h4⟩, _⟩, h6⟩, h7⟩, h8⟩, h9⟩ := h
  exact ⟨⟨⟨⟨⟨⟨⟨⟨h1, h2⟩, h3⟩, h4⟩, hr⟩, h6⟩, h7⟩, h8⟩, h9⟩

theorem applyOpt_valid (l : Locale) (o : Opt) (l2 : Locale)
    (hv : ValidLocale l = true) (h : applyOpt l o = .ok l2) :
    ValidLocale l2 = true := by
  simp only [ValidLocale, Bool.and_eq_true] at hv
  obtain ⟨⟨hshape, hhc⟩, hcal⟩ := hv
  cases o with
  | Script s =>
    simp only [applyOpt] at h
    by_cases hs : isScriptTok s = true
    · rw [if_pos hs] at h
      injection h with h2
      rw [← h2]
      simp only [ValidLocale, Bool.and_eq_true]
      exact ⟨⟨validShape_setScript l.tag s hshape hs, hhc⟩, hcal⟩
    · rw [if_neg hs] at h
      exact absurd h (by simp)
  | Region r =>
    simp only [applyOpt] at h
    by_cases hr : isRegionTok r = true
    · rw [if_pos hr] at h
      injection h with h2
      rw [← h2]
      simp only [ValidLocale, Bool.and_eq_true]
      exact ⟨⟨validShape_setRegion l.tag r hshape hr, hhc⟩, hcal⟩
    · rw [if_neg hr] at h
      exact absurd h (by simp)
  | HourCycle hc =>
    simp only [applyOpt] at h
    by_cases hh : hourCycleVals.contains hc = true
    · rw [if_pos hh] at h
      injection h with h2
      rw [← h2]
      simp only [ValidLocale, Bool.and_eq_true]
      exact ⟨⟨hshape, hh⟩, hcal⟩
    · rw [if_neg hh] at h
      exact absurd h (by simp)
  | Calendar ca =>
    simp only [applyOpt] at h
    by_cases hc2 : calendarVals.contains ca = true
    · rw [if_pos hc2] at h
      injection h with h2
      rw [← h2]
      simp only [ValidLocale, Bool.and_eq_true]
      exact ⟨⟨hshape, hhc⟩, hc2⟩
    · rw [if_neg hc2] at h
      exact absurd h (by simp)

theorem merge_sound : ∀ (opts : List Opt) (l0 l : Locale),
    ValidLocale l0 = true → List.foldlM applyOpt l0 opts = .ok l →
    ValidLocale l = true
  | [], l0, l, hv, h => by
    replace h : (Except.ok l0 : Except MergeError Locale) = .ok l := h
    injection h with h2
    rw [← h2]
    exact hv
  | o :: opts, l0, l, hv, h => by
    rw [List.foldlM_cons] at h
    cases ha : applyOpt l0 o with
    | error e =>
      rw [ha] at h
      replace h : (Except.error e : Except MergeError Locale) = .ok l := h
      exact absurd h (by simp)
    | ok l1 =>
      rw [ha] at h
      replace h : List.foldlM applyOpt l1 opts = .ok l := h
      exact merge_sound opts l1 l (applyOpt_valid l0 o l1 hv ha) h

/-- C8: `Locale` construction is atomic — a failing parse stage surfaces
its typed error, a failing merge stage surfaces its typed error, and
every `Locale` the constructor does return is in a valid state, so no
partially valid value is ever produced. -/
theorem c8_locale_new_atomic (tag : String) (opts : List Opt) :
    (∀ e, parseTag tag = .error e →
      Locale.new tag opts = .error (liftTagError e)) ∧
    (∀ t e, parseTag tag = .ok t → merge t opts = .error e →
      Locale.new tag opts = .error (.mergeErr e)) ∧
    (∀ l, Locale.new tag opts = .ok l → ValidLocale l = true) := by
  refine ⟨?_, ?_, ?_⟩
  · intro e he
    unfold Locale.new
    rw [he]
  · intro t e hp hm
    unfold Locale.new
    rw [hp]
    show (merge t opts).mapError NewError.mergeErr = _
    rw [hm]
    rfl
  · intro l hl
    unfold Locale.new at hl
    cases hp : parseTag tag with
    | error e =>
      rw [hp] at hl
      replace hl : (Except.error (liftTagError e) : Except NewError Locale) =
        .ok l := hl
      exact absurd hl (by simp)
    | ok t =>
      rw [hp] at hl
      replace hl : (merge t opts).mapError NewError.mergeErr = .ok l := hl
      cases hm : merge t opts with
      | error e =>
        rw [hm] at hl
        exact absurd hl (by simp [Except.mapError])
      | ok l2 =>
        rw [hm, except_mapError_ok] at hl
        have hll : l = l2 := by
          injection hl with h2
          exact h2.symm
        rw [hll]
        refine merge_sound opts ⟨t, none, none⟩ l2 ?_ hm
        simp only [ValidLocale, Bool.and_eq_true]
        exact ⟨⟨parseTag_valid tag t hp, rfl⟩, rfl⟩

/-- Witness for C8: a successful construction yields a valid `Locale`,
and a malformed base tag makes the constructor fail with the scan
stage's typed error. -/
theorem c8_locale_new_atomic_witness :
    ValidLocale ⟨⟨"en", [], none, some "US", [], [], none⟩,
      some "h23", none⟩ = true ∧
    Locale.new "en--US" [] =
      .error (.scanErr (.invalidSubtag 1 "")) :=
  ⟨(c8_locale_new_atomic "en-US" [Opt.HourCycle "h23"]).2.2
      ⟨⟨"en", [], none, some "US", [], [], none⟩, some "h23", none⟩
      (by decide),
    (c8_locale_new_atomic "en--US" []).1
      (.scanErr (.invalidSubtag 1 "")) (by decide)⟩

/-- C9: constructing from base tag `en-US` with `Opt::Script("Latn")`
yields the canonical serialization `en-Latn-US`, while the 3-character
override value `Lat` fails the script shape check and construction fails
with `MergeError::InvalidOverride` naming the script field. -/
theorem c9_script_override :
    (Locale.new "en-US" [Opt.Script "Latn"]).map Locale.asBcp47 =
      .ok "en-Latn-US" ∧
    Locale.new "en-US" [Opt.Script "Lat"] =
      .error (.mergeErr (.InvalidOverride .script "Lat")) := by
  refine ⟨?_, ?_⟩ <;> decide

end RustDiscuss
